import Mathlib

/-!
Verification of the gentlegoose core: the permissive JSON5-ish codec
(`FileHandler._parse_json5`, `FileHandler._remove_trailing_commas`), the
canonical encoder (`json.dumps(settings, indent=2, ensure_ascii=False)` as
used by `FileHandler.write_zed_settings`), the atomic document writer
(`FileHandler.write_zed_settings`), the pattern merge engine
(`ConfigManager._get_patterns_to_add` / `ConfigManager._update_zed_settings`)
and the gitignore line transform (`FileHandler.read_gitignore_patterns`).

Texts are modelled as `List Char`.  Python `str` values appearing inside
documents are modelled as Lean `String`.  Machine-level concerns (file
descriptors, encodings) are abstracted into an explicit file-system state;
numbers in documents are modelled as integers (the repository only ever
stores strings and the tests use integers; float formatting is outside the
shallow embedding).
-/

namespace Gentlegoose

/-- Characters for which Python's `str.isspace()` returns true (ASCII and
the BMP whitespace code points; used by `str.strip`, `str.rstrip` and the
`isspace()` look-ahead in `_remove_trailing_commas`). -/
def pyIsSpace (c : Char) : Bool :=
  c = ' ' || c = '\t' || c = '\n' || c = '\x0b' || c = '\x0c' || c = '\r' ||
  c = '\x1c' || c = '\x1d' || c = '\x1e' || c = '\x1f' || c = '\x85' ||
  c = '\xa0' || c = '\u1680' || ('\u2000' ≤ c && c ≤ '\u200a') ||
  c = '\u2028' || c = '\u2029' || c = '\u202f' || c = '\u205f' || c = '\u3000'

/-- Python `str.strip()` with no arguments (leading and trailing whitespace
removed). -/
def pyStrip (l : List Char) : List Char :=
  ((l.dropWhile pyIsSpace).reverse.dropWhile pyIsSpace).reverse

/-- Python `str.rstrip()` with no arguments (trailing whitespace removed). -/
def pyRstrip (l : List Char) : List Char :=
  (l.reverse.dropWhile pyIsSpace).reverse

/-- Line-break characters recognised by Python `str.splitlines()`. -/
def pyIsLineBreak (c : Char) : Bool :=
  c = '\n' || c = '\r' || c = '\x0b' || c = '\x0c' || c = '\x1c' ||
  c = '\x1d' || c = '\x1e' || c = '\x85' || c = '\u2028' || c = '\u2029'

/-- Prepend a character onto the first line of a line list. -/
def consHead (c : Char) : List (List Char) → List (List Char)
  | [] => [[c]]
  | line :: ls => (c :: line) :: ls

/-- Split a text at line breaks (`\r\n` counts as one break), keeping the
possibly empty segment after the final break as a last element. -/
def pySplitlinesAux : List Char → List (List Char)
  | [] => [[]]
  | '\r' :: '\n' :: rest => [] :: pySplitlinesAux rest
  | c :: rest =>
      if pyIsLineBreak c then [] :: pySplitlinesAux rest
      else consHead c (pySplitlinesAux rest)

/-- Python `str.splitlines()`: split at line-break characters, treating
`\r\n` as a single break; the segment after the final break is dropped
when empty (so a trailing line break produces no extra empty line). -/
def pySplitlines (cs : List Char) : List (List Char) :=
  if (pySplitlinesAux cs).getLast? = some [] then (pySplitlinesAux cs).dropLast
  else pySplitlinesAux cs

/-- Python `"\n".join(lines)` on a list of lines. -/
def joinNl (ls : List (List Char)) : List Char :=
  List.intercalate ['\n'] ls

/-- Document values as produced and consumed by the Python code: the JSON
data model (objects keep key insertion order) plus a constructor for Python
values that `json.dumps` cannot serialize (it raises `TypeError` on them);
the argument names the offending Python value. -/
inductive PyValue where
  | obj : List (String × PyValue) → PyValue
  | arr : List PyValue → PyValue
  | str : String → PyValue
  | num : Int → PyValue
  | bool : Bool → PyValue
  | null : PyValue
  | unsupported : String → PyValue

mutual

/-- True when `json.dumps` can serialize the value (no `unsupported` node
anywhere in the tree). -/
def json_serializable : PyValue → Bool
  | .obj ms => json_serializable_members ms
  | .arr vs => json_serializable_elems vs
  | .str _ => true
  | .num _ => true
  | .bool _ => true
  | .null => true
  | .unsupported _ => false

/-- Serializability of the members of an object. -/
def json_serializable_members : List (String × PyValue) → Bool
  | [] => true
  | (_, v) :: ms => json_serializable v && json_serializable_members ms

/-- Serializability of the elements of an array. -/
def json_serializable_elems : List PyValue → Bool
  | [] => true
  | v :: vs => json_serializable v && json_serializable_elems vs

end

/-- A Boolean check that a list of object keys has no duplicates. -/
def keysNodup : List String → Bool
  | [] => true
  | k :: ks => !ks.contains k && keysNodup ks

mutual

/-- Well-formedness of a document tree: every object is a genuine mapping,
i.e. its keys are pairwise distinct (Python dictionaries guarantee this by
construction). -/
def wf_val : PyValue → Bool
  | .obj ms => keysNodup (ms.map Prod.fst) && wf_members ms
  | .arr vs => wf_elems vs
  | .str _ => true
  | .num _ => true
  | .bool _ => true
  | .null => true
  | .unsupported _ => true

/-- Well-formedness of object members. -/
def wf_members : List (String × PyValue) → Bool
  | [] => true
  | (_, v) :: ms => wf_val v && wf_members ms

/-- Well-formedness of array elements. -/
def wf_elems : List PyValue → Bool
  | [] => true
  | v :: vs => wf_val v && wf_elems vs

end

/-- Decimal digit characters. -/
def digitChar : Nat → Char
  | 0 => '0' | 1 => '1' | 2 => '2' | 3 => '3' | 4 => '4'
  | 5 => '5' | 6 => '6' | 7 => '7' | 8 => '8' | 9 => '9'
  | _ => '0'

/-- Lower-case hexadecimal digit characters, as emitted by Python's
`json.dumps` in `\u00xx` escapes. -/
def hexDigitChar : Nat → Char
  | 0 => '0' | 1 => '1' | 2 => '2' | 3 => '3' | 4 => '4'
  | 5 => '5' | 6 => '6' | 7 => '7' | 8 => '8' | 9 => '9'
  | 10 => 'a' | 11 => 'b' | 12 => 'c' | 13 => 'd' | 14 => 'e' | 15 => 'f'
  | _ => '0'

/-- Decimal digit list of a natural number with an explicit recursion
bound; `fuel` at least the number of digits suffices. -/
def natToDigitsAux : Nat → Nat → List Char
  | 0, _ => []
  | fuel + 1, n =>
      if n < 10 then [digitChar n]
      else natToDigitsAux fuel (n / 10) ++ [digitChar (n % 10)]

/-- Decimal digit list of a natural number, most significant first
(Python `repr` of a non-negative `int`). -/
def natToDigits (n : Nat) : List Char :=
  natToDigitsAux (n + 1) n

/-- Python `repr` of an `int`, as emitted by `json.dumps`. -/
def intToChars (n : Int) : List Char :=
  if n < 0 then '-' :: natToDigits n.natAbs else natToDigits n.toNat

/-- Escape of one character inside a JSON string as produced by
`json.dumps(..., ensure_ascii=False)`: quote, backslash and control
characters are escaped, everything else is passed through. -/
def enc_char (c : Char) : List Char :=
  if c = '"' then ['\\', '"']
  else if c = '\\' then ['\\', '\\']
  else if c = '\n' then ['\\', 'n']
  else if c = '\r' then ['\\', 'r']
  else if c = '\t' then ['\\', 't']
  else if c = '\x08' then ['\\', 'b']
  else if c = '\x0c' then ['\\', 'f']
  else if c.toNat < 0x20 then
    ['\\', 'u', '0', '0', hexDigitChar (c.toNat / 16), hexDigitChar (c.toNat % 16)]
  else [c]

/-- Escaped body of a JSON string literal. -/
def enc_string_body : List Char → List Char
  | [] => []
  | c :: cs => enc_char c ++ enc_string_body cs

/-- A complete JSON string literal for `s`. -/
def enc_string (s : String) : List Char :=
  '"' :: enc_string_body s.data ++ ['"']

/-- Indentation: `n` spaces. -/
def spaces (n : Nat) : List Char :=
  List.replicate n ' '

mutual

/-- Output of `json.dumps(v, indent=2, ensure_ascii=False)` when the
enclosing context is indented by `ind` spaces.  `unsupported` values never
reach this function (`dumps` rejects them first); they print as nothing. -/
def encode_val (ind : Nat) : PyValue → List Char
  | .obj [] => ['{', '}']
  | .obj (m :: ms) =>
      '{' :: (encode_member (ind + 2) m ++ encode_members (ind + 2) ms) ++
        '\n' :: spaces ind ++ ['}']
  | .arr [] => ['[', ']']
  | .arr (v :: vs) =>
      '[' :: (('\n' :: spaces (ind + 2) ++ encode_val (ind + 2) v)
        ++ encode_elems (ind + 2) vs) ++
        '\n' :: spaces ind ++ [']']
  | .str s => enc_string s
  | .num n => intToChars n
  | .bool b => if b then ['t', 'r', 'u', 'e'] else ['f', 'a', 'l', 's', 'e']
  | .null => ['n', 'u', 'l', 'l']
  | .unsupported _ => []

/-- One object member on its own line: newline, indentation, key, colon,
space, value. -/
def encode_member (ind : Nat) : String × PyValue → List Char
  | (k, v) => '\n' :: spaces ind ++ enc_string k ++ ':' :: ' ' :: encode_val ind v

/-- Remaining object members, each preceded by the item separator. -/
def encode_members (ind : Nat) : List (String × PyValue) → List Char
  | [] => []
  | m :: ms => ',' :: encode_member ind m ++ encode_members ind ms

/-- Remaining array elements, each preceded by the item separator; each
element sits on its own line after a newline and indentation. -/
def encode_elems (ind : Nat) : List PyValue → List Char
  | [] => []
  | v :: vs =>
      ',' :: ('\n' :: spaces ind ++ encode_val ind v) ++ encode_elems ind vs

end

/-- Model of `json.dumps(v, indent=2, ensure_ascii=False)`: fails (raises
`TypeError`) iff the tree contains a value outside the JSON data model. -/
def dumps (v : PyValue) : Option (List Char) :=
  if json_serializable v then some (encode_val 0 v) else none

/-- The comment scan of `FileHandler._parse_json5` on one line: find the
position of the first `//` recognised outside a string.  The code checks
the escape flag first (consuming it on any character), then sets it on a
backslash, then toggles the in-string flag on a quote, and only then looks
for `/` followed by `/`. -/
def findCommentPos (inStr esc : Bool) (pos : Nat) : List Char → Option Nat
  | [] => none
  | c :: cs =>
    if esc then findCommentPos inStr false (pos + 1) cs
    else if c = '\\' then findCommentPos inStr true (pos + 1) cs
    else if c = '"' then findCommentPos (!inStr) false (pos + 1) cs
    else if !inStr && c = '/' && cs.head? = some '/' then some pos
    else findCommentPos inStr esc (pos + 1) cs

/-- One line of the comment-stripping pass of `FileHandler._parse_json5`:
if a comment was found, keep the text before it and strip the trailing
whitespace (`original_line[:comment_pos].rstrip()`). -/
def strip_comment_line (l : List Char) : List Char :=
  match findCommentPos false false 0 l with
  | none => l
  | some p => pyRstrip (l.take p)

/-- The whole comment-stripping pass: `content.splitlines()`, strip each
line, `"\n".join(lines)`. -/
def strip_comments (content : List Char) : List Char :=
  joinNl ((pySplitlines content).map strip_comment_line)

/-- Loop of `FileHandler._remove_trailing_commas`: a comma outside a string
is dropped when the next non-whitespace character is `}` or `]`; all other
characters are copied through, with the same escape-first state machine as
the comment scan. -/
def removeTC (inStr esc : Bool) : List Char → List Char
  | [] => []
  | c :: cs =>
    if esc then c :: removeTC inStr false cs
    else if c = '\\' then c :: removeTC inStr true cs
    else if c = '"' then c :: removeTC (!inStr) false cs
    else if !inStr && c = ',' then
      match cs.dropWhile pyIsSpace with
      | d :: _ =>
          if d = '}' || d = ']' then removeTC inStr esc cs
          else c :: removeTC inStr esc cs
      | [] => c :: removeTC inStr esc cs
    else c :: removeTC inStr esc cs

/-- Model of `FileHandler._remove_trailing_commas`. -/
def remove_trailing_commas (content : List Char) : List Char :=
  removeTC false false content

/-- JSON whitespace, as skipped by `json.loads`. -/
def jsonWs (c : Char) : Bool :=
  c = ' ' || c = '\t' || c = '\n' || c = '\r'

/-- Skip JSON whitespace. -/
def skipWs (cs : List Char) : List Char :=
  cs.dropWhile jsonWs

/-- Value of a hexadecimal digit character. -/
def hexVal? (c : Char) : Option Nat :=
  if '0' ≤ c && c ≤ '9' then some (c.toNat - 48)
  else if 'a' ≤ c && c ≤ 'f' then some (c.toNat - 87)
  else if 'A' ≤ c && c ≤ 'F' then some (c.toNat - 55)
  else none

/-- Body of a JSON string literal after the opening quote, as read by
`json.loads` in strict mode: raw control characters are rejected, escape
sequences are decoded (surrogate-pair recombination is not modelled; the
encoder under verification never emits surrogate escapes). -/
def parseStringBody (acc : List Char) : List Char → Option (String × List Char)
  | [] => none
  | '"' :: rest => some (String.mk acc, rest)
  | '\\' :: e :: rest =>
    (match e with
     | '"' => parseStringBody (acc ++ ['"']) rest
     | '\\' => parseStringBody (acc ++ ['\\']) rest
     | '/' => parseStringBody (acc ++ ['/']) rest
     | 'b' => parseStringBody (acc ++ ['\x08']) rest
     | 'f' => parseStringBody (acc ++ ['\x0c']) rest
     | 'n' => parseStringBody (acc ++ ['\n']) rest
     | 'r' => parseStringBody (acc ++ ['\r']) rest
     | 't' => parseStringBody (acc ++ ['\t']) rest
     | 'u' =>
       match rest with
       | h1 :: h2 :: h3 :: h4 :: rest2 =>
         (match hexVal? h1, hexVal? h2, hexVal? h3, hexVal? h4 with
          | some a, some b, some c, some d =>
              parseStringBody
                (acc ++ [Char.ofNat (((a * 16 + b) * 16 + c) * 16 + d)]) rest2
          | _, _, _, _ => none)
       | _ => none
     | _ => none)
  | '\\' :: [] => none
  | c :: rest => if c.toNat < 0x20 then none else parseStringBody (acc ++ [c]) rest

/-- Decimal digit test. -/
def isDigitChar (c : Char) : Bool :=
  '0' ≤ c && c ≤ '9'

/-- Value of a decimal digit character. -/
def digitVal (c : Char) : Nat :=
  c.toNat - 48

/-- Accumulate the value of a run of decimal digits. -/
def digitsVal (acc : Nat) : List Char → Nat
  | [] => acc
  | c :: cs => digitsVal (acc * 10 + digitVal c) cs

/-- Parse a non-empty run of decimal digits. -/
def parseNat (cs : List Char) : Option (Nat × List Char) :=
  if cs.takeWhile isDigitChar = [] then none
  else some (digitsVal 0 (cs.takeWhile isDigitChar), cs.dropWhile isDigitChar)

/-- Parse a JSON integer numeral (an optional minus sign and digits; the
fraction and exponent forms of full JSON numbers are outside the model,
which restricts numbers to integers). -/
def parseNumber (cs : List Char) : Option (Int × List Char) :=
  match cs with
  | '-' :: rest => (parseNat rest).map (fun p => (-(p.1 : Int), p.2))
  | _ => (parseNat cs).map (fun p => ((p.1 : Int), p.2))

mutual

/-- Recursive-descent JSON value parser modelling `json.loads`, with a fuel
argument bounding the recursion depth. -/
def parseValue : Nat → List Char → Option (PyValue × List Char)
  | 0, _ => none
  | fuel + 1, cs =>
    match skipWs cs with
    | [] => none
    | '{' :: r =>
      (match skipWs r with
       | '}' :: r2 => some (.obj [], r2)
       | r2 => (parseMembers fuel r2).map fun p => (.obj p.1, p.2))
    | '[' :: r =>
      (match skipWs r with
       | ']' :: r2 => some (.arr [], r2)
       | r2 => (parseElems fuel r2).map fun p => (.arr p.1, p.2))
    | '"' :: r => (parseStringBody [] r).map fun p => (.str p.1, p.2)
    | 't' :: r => if r.take 3 = ['r', 'u', 'e'] then some (.bool true, r.drop 3) else none
    | 'f' :: r => if r.take 4 = ['a', 'l', 's', 'e'] then some (.bool false, r.drop 4) else none
    | 'n' :: r => if r.take 3 = ['u', 'l', 'l'] then some (.null, r.drop 3) else none
    | c :: r =>
        if c = '-' || isDigitChar c then
          (parseNumber (c :: r)).map fun p => (.num p.1, p.2)
        else none

/-- Parse the members of a non-empty object: key, colon, value, then a
comma and further members or the closing brace. -/
def parseMembers : Nat → List Char → Option (List (String × PyValue) × List Char)
  | 0, _ => none
  | fuel + 1, cs =>
    match skipWs cs with
    | '"' :: r =>
      (match parseStringBody [] r with
       | none => none
       | some (k, r2) =>
         match skipWs r2 with
         | ':' :: r3 =>
           (match parseValue fuel r3 with
            | none => none
            | some (v, r4) =>
              match skipWs r4 with
              | ',' :: r5 => (parseMembers fuel r5).map fun p => ((k, v) :: p.1, p.2)
              | '}' :: r5 => some ([(k, v)], r5)
              | _ => none)
         | _ => none)
    | _ => none

/-- Parse the elements of a non-empty array: value, then a comma and
further elements or the closing bracket. -/
def parseElems : Nat → List Char → Option (List PyValue × List Char)
  | 0, _ => none
  | fuel + 1, cs =>
    match parseValue fuel cs with
    | none => none
    | some (v, r) =>
      match skipWs r with
      | ',' :: r2 => (parseElems fuel r2).map fun p => (v :: p.1, p.2)
      | ']' :: r2 => some ([v], r2)
      | _ => none

end

/-- Model of `json.loads`: parse one value and require only whitespace to
remain. -/
def json_loads (cs : List Char) : Option PyValue :=
  match parseValue (cs.length + 1) cs with
  | some (v, rest) => if skipWs rest = [] then some v else none
  | none => none

/-- Model of `FileHandler._parse_json5`: empty or whitespace-only input is
an empty object; otherwise strip comments, remove trailing commas and
parse strictly. -/
def parse_json5 (content : List Char) : Option PyValue :=
  if pyStrip content = [] then some (.obj [])
  else json_loads (remove_trailing_commas (strip_comments content))

/-! ## Gitignore pattern reading (`FileHandler.read_gitignore_patterns`) -/

/-- Loop body of `FileHandler.read_gitignore_patterns` over the lines of
the file: strip each line, skip empty lines and `#` comments, and prepend
the recursive glob marker unless the line already starts with it. -/
def read_gitignore_patterns_lines : List (List Char) → List (List Char)
  | [] => []
  | line :: rest =>
    let l := pyStrip line
    if l ≠ [] ∧ l.head? ≠ some '#' then
      (if l.take 3 = ['*', '*', '/'] then l else '*' :: '*' :: '/' :: l) ::
        read_gitignore_patterns_lines rest
    else read_gitignore_patterns_lines rest

/-- Model of `FileHandler.read_gitignore_patterns` applied to the file's
text. -/
def read_gitignore_patterns (content : List Char) : List (List Char) :=
  read_gitignore_patterns_lines (pySplitlines content)

/-- The per-line transform as the specification describes it: empty and
comment lines produce no pattern, all others are emitted with the
recursive-match marker prepended unless already present. -/
def spec_pattern_of_line (line : List Char) : Option (List Char) :=
  let l := pyStrip line
  if l = [] then none
  else if l.head? = some '#' then none
  else if l.take 3 = ['*', '*', '/'] then some l
  else some ('*' :: '*' :: '/' :: l)

/-! ## Claim-side and amended scanners for comment stripping and
trailing-comma removal -/

/-- The comment scan exactly as claim C5 words it: the first `//` occurring
outside a double-quoted string starts the comment, a quote toggles the
in-string state unless immediately preceded by an escaping backslash, and a
backslash directly after a backslash does not escape. -/
def claimFindComment (inStr prevBackslash : Bool) (pos : Nat) : List Char → Option Nat
  | [] => none
  | c :: cs =>
    if c = '"' && !prevBackslash then claimFindComment (!inStr) false (pos + 1) cs
    else if !inStr && c = '/' && cs.head? = some '/' then some pos
    else claimFindComment inStr (c = '\\' && !prevBackslash) (pos + 1) cs

/-- Comment stripping of one line as claim C5 words it. -/
def claim_strip_comment_line (l : List Char) : List Char :=
  match claimFindComment false false 0 l with
  | none => l
  | some p => pyRstrip (l.take p)

/-- Four states of the character scanner: outside or inside a string
literal, each optionally with an escape pending from a preceding
backslash. -/
inductive ScanMode where
  | outStr
  | outStrEsc
  | inStr
  | inStrEsc
deriving DecidableEq

/-- Correspondence between the two Boolean flags of the Python scanners
and the four scanner states. -/
def scanMode : Bool → Bool → ScanMode
  | false, false => .outStr
  | false, true => .outStrEsc
  | true, false => .inStr
  | true, true => .inStrEsc

/-- The comment scan of the amended claim C5, written as an explicit
state machine: the character after a backslash is consumed by the escape
state even outside strings, so a `//` whose first slash is consumed this
way is not recognised. -/
def amendedFindComment (m : ScanMode) (pos : Nat) : List Char → Option Nat
  | [] => none
  | c :: cs =>
    match m with
    | .outStrEsc => amendedFindComment .outStr (pos + 1) cs
    | .inStrEsc => amendedFindComment .inStr (pos + 1) cs
    | .outStr =>
      if c = '\\' then amendedFindComment .outStrEsc (pos + 1) cs
      else if c = '"' then amendedFindComment .inStr (pos + 1) cs
      else if c = '/' && cs.head? = some '/' then some pos
      else amendedFindComment .outStr (pos + 1) cs
    | .inStr =>
      if c = '\\' then amendedFindComment .inStrEsc (pos + 1) cs
      else if c = '"' then amendedFindComment .outStr (pos + 1) cs
      else amendedFindComment .inStr (pos + 1) cs

/-- Comment stripping of one line under the amended claim C5. -/
def amended_strip_comment_line (l : List Char) : List Char :=
  match amendedFindComment .outStr 0 l with
  | none => l
  | some p => pyRstrip (l.take p)

/-- Trailing-comma removal exactly as claim C6 words it: a comma outside a
double-quoted string is removed iff the next non-whitespace character is a
closing delimiter, where only an escaped quote fails to toggle the
in-string state. -/
def claimRemoveTC (inStr prevBackslash : Bool) : List Char → List Char
  | [] => []
  | c :: cs =>
    if c = '"' && !prevBackslash then c :: claimRemoveTC (!inStr) false cs
    else if !inStr && c = ',' then
      (match cs.dropWhile pyIsSpace with
       | d :: _ =>
           if d = '}' || d = ']' then claimRemoveTC inStr false cs
           else c :: claimRemoveTC inStr false cs
       | [] => c :: claimRemoveTC inStr false cs)
    else c :: claimRemoveTC inStr (c = '\\' && !prevBackslash) cs

/-- Trailing-comma removal on a whole text as claim C6 words it. -/
def claim_remove_trailing_commas (content : List Char) : List Char :=
  claimRemoveTC false false content

/-- Trailing-comma removal of the amended claim C6, written as an explicit
state machine: the character after any backslash is consumed by the escape
state (even outside strings), and a comma scanned in a non-escape
outside-string state is removed iff the next non-whitespace character is a
closing delimiter. -/
def amendedRemoveTC (m : ScanMode) : List Char → List Char
  | [] => []
  | c :: cs =>
    match m with
    | .outStrEsc => c :: amendedRemoveTC .outStr cs
    | .inStrEsc => c :: amendedRemoveTC .inStr cs
    | .outStr =>
      if c = '\\' then c :: amendedRemoveTC .outStrEsc cs
      else if c = '"' then c :: amendedRemoveTC .inStr cs
      else if c = ',' then
        (match cs.dropWhile pyIsSpace with
         | d :: _ =>
             if d = '}' || d = ']' then amendedRemoveTC .outStr cs
             else c :: amendedRemoveTC .outStr cs
         | [] => c :: amendedRemoveTC .outStr cs)
      else c :: amendedRemoveTC .outStr cs
    | .inStr =>
      if c = '\\' then c :: amendedRemoveTC .inStrEsc cs
      else if c = '"' then c :: amendedRemoveTC .outStr cs
      else c :: amendedRemoveTC .inStr cs

/-- Trailing-comma removal on a whole text under the amended claim C6. -/
def amended_remove_trailing_commas (content : List Char) : List Char :=
  amendedRemoveTC .outStr content

/-! ## Pattern merge engine (`ConfigManager._get_patterns_to_add`) -/

/-- Model of `ConfigManager._get_patterns_to_add`: iterate the global
patterns in order and keep those not contained in the existing exclusions
(membership of `pattern not in current_set` for `current_set =
set(current_exclusions)` coincides with list membership). -/
def get_patterns_to_add (current_exclusions : List String) : List String → List String
  | [] => []
  | p :: ps =>
    if current_exclusions.contains p then get_patterns_to_add current_exclusions ps
    else p :: get_patterns_to_add current_exclusions ps

/-! ## Dictionary operations used by `ConfigManager._update_zed_settings` -/

/-- The settings key updated by the tool. -/
def FILE_SCAN_EXCLUSIONS : String := "file_scan_exclusions"

/-- Python dictionary assignment `d[k] = v` on an insertion-ordered
mapping: replace the value in place if the key exists, else append the new
entry at the end. -/
def dict_set : List (String × PyValue) → String → PyValue → List (String × PyValue)
  | [], k, v => [(k, v)]
  | (k', v') :: ps, k, v =>
      if k' = k then (k, v) :: ps else (k', v') :: dict_set ps k v

/-- Python dictionary lookup `d.get(k)` (first occurrence; keys of a
Python dictionary are unique). -/
def dict_get : List (String × PyValue) → String → Option PyValue
  | [], _ => none
  | (k', v) :: rest, k => if k' = k then some v else dict_get rest k

/-- Extract a Python `list[str]` from an array value. -/
def as_string_list : List PyValue → Option (List String)
  | [] => some []
  | .str s :: vs => (as_string_list vs).map (s :: ·)
  | _ :: _ => none

/-- The exclusion list of a settings document:
`settings.get("file_scan_exclusions", [])`, restricted to the well-typed
case of an array of strings (any other value makes the Python update crash
with a `TypeError` before writing, modelled as failure). -/
def fse_strings (ms : List (String × PyValue)) : Option (List String) :=
  match dict_get ms FILE_SCAN_EXCLUSIONS with
  | none => some []
  | some (.arr vs) => as_string_list vs
  | some _ => none

/-! ## File-system model and the atomic writer
(`FileHandler.write_zed_settings`, `FileHandler.read_zed_settings`,
`ConfigManager._update_zed_settings`) -/

/-- File-system state: the contents of regular files by path, and the
contents of the writer's temporary file (`tempfile.NamedTemporaryFile`
names are fresh, so the temporary file is modelled as its own slot). -/
structure FState where
  files : String → Option (List Char)
  temp : Option (List Char)

/-- Fault injection for the operating-system calls the writer performs;
a `true` flag makes the corresponding call raise `OSError`. -/
structure Env where
  createFault : Bool
  readFault : Bool
  moveFault : Bool

/-- Completed file I/O operations, in order. -/
inductive IOEvent where
  | createTemp
  | writeTemp
  | readTemp
  | moveTemp
  | unlinkTemp
deriving DecidableEq

/-- Model of `FileHandler.write_zed_settings`: create a temporary file in
the target directory, serialize the settings into it (`json.dumps` raising
`TypeError` on unsupported values is caught and cleaned up), validate by
re-reading the temporary file through `_parse_json5`, then atomically move
it onto the target.  Every failure path removes the temporary file and
leaves the target untouched.  Returns the success flag, the resulting
file-system state and the trace of completed I/O operations. -/
def write_zed_settings (env : Env) (fs : FState) (path : String)
    (settings : PyValue) : Bool × FState × List IOEvent :=
  if env.createFault then (false, fs, [])
  else
    match dumps settings with
    | none =>
        (false, { fs with temp := none }, [.createTemp, .unlinkTemp])
    | some content =>
        if env.readFault then
          (false, { fs with temp := none },
           [.createTemp, .writeTemp, .unlinkTemp])
        else
          match parse_json5 content with
          | none =>
              (false, { fs with temp := none },
               [.createTemp, .writeTemp, .readTemp, .unlinkTemp])
          | some _ =>
              if env.moveFault then
                (false, { fs with temp := none },
                 [.createTemp, .writeTemp, .readTemp, .unlinkTemp])
              else
                (true,
                 { files := fun p => if p = path then some content else fs.files p,
                   temp := none },
                 [.createTemp, .writeTemp, .readTemp, .moveTemp])

/-- Model of `FileHandler.read_zed_settings`: a missing file reads as an
empty object; an existing file is decoded through `_parse_json5`, whose
`json.JSONDecodeError` propagates to the caller (`none`). -/
def read_zed_settings (fs : FState) (path : String) : Option PyValue :=
  match fs.files path with
  | none => some (.obj [])
  | some content => parse_json5 content

/-- Model of `ConfigManager._update_zed_settings`: read the current
settings, compute the patterns to add, return success immediately when
nothing qualifies or when in dry-run mode, otherwise extend the exclusion
list and write atomically.  `none` models an uncaught Python exception
(malformed settings file, a non-object document, or an ill-typed exclusion
value).  Directory creation is not modelled (the file map has no
directories). -/
def update_zed_settings (env : Env) (fs : FState) (dryRun : Bool)
    (path : String) (global_patterns : List String) :
    Option (Bool × FState × List IOEvent) :=
  match read_zed_settings fs path with
  | none => none
  | some (.obj members) =>
    (match fse_strings members with
     | none => none
     | some current_exclusions =>
       let patterns_to_add := get_patterns_to_add current_exclusions global_patterns
       if patterns_to_add = [] then some (true, fs, [])
       else if dryRun then some (true, fs, [])
       else
         let new_exclusions := current_exclusions ++ patterns_to_add
         let new_settings := dict_set members FILE_SCAN_EXCLUSIONS
             (.arr (new_exclusions.map PyValue.str))
         some (write_zed_settings env fs path (.obj new_settings)))
  | some _ => none

/-! ## Helper scanners and measures for the round-trip proof -/

/-- The three line-separator characters that Python's `str.splitlines()`
breaks at although `json.dumps(..., ensure_ascii=False)` passes them
through unescaped inside string literals (they are at or above `0x20`). -/
def isExoticBreak (c : Char) : Bool :=
  c = '\x85' || c = '\u2028' || c = '\u2029'

/-- A string none of whose characters is an exotic line separator. -/
def clean_string (s : String) : Bool :=
  s.data.all (fun c => !isExoticBreak c)

mutual

/-- A document tree none of whose strings (keys or values) contains an
exotic line separator; such characters are re-split and re-joined as `\n`
by the comment-stripping pass and therefore do not survive a decode of the
encoded document. -/
def clean_val : PyValue → Bool
  | .obj ms => clean_members ms
  | .arr vs => clean_elems vs
  | .str s => clean_string s
  | .num _ => true
  | .bool _ => true
  | .null => true
  | .unsupported _ => true

/-- Cleanliness of object members (keys and values). -/
def clean_members : List (String × PyValue) → Bool
  | [] => true
  | (k, v) :: ms => clean_string k && clean_val v && clean_members ms

/-- Cleanliness of array elements. -/
def clean_elems : List PyValue → Bool
  | [] => true
  | v :: vs => clean_val v && clean_elems vs

end

/-- String-literal scanner for canonical encoder output: tracks the
in-string and escape states, rejecting anything the canonical encoder
never emits in that state (a slash or backslash outside a string, a raw
line break inside a string or after a backslash, a carriage return
anywhere).  Returns the final state. -/
def lineScan (inStr esc : Bool) : List Char → Option (Bool × Bool)
  | [] => some (inStr, esc)
  | c :: cs =>
    if esc then
      if pyIsLineBreak c then none else lineScan inStr false cs
    else if c = '\\' then
      if inStr then lineScan inStr true cs else none
    else if c = '"' then lineScan (!inStr) false cs
    else if inStr then
      if pyIsLineBreak c then none else lineScan inStr false cs
    else if c = '/' || (pyIsLineBreak c && !(c = '\n')) then none
    else lineScan inStr esc cs

/-- Whether the text has a next non-whitespace character (the look-ahead
of `_remove_trailing_commas` finds one before the end). -/
def hasNext (cs : List Char) : Bool :=
  ((cs.dropWhile pyIsSpace).head?).isSome

/-- Whether the next non-whitespace character of the text is a closing
delimiter — exactly the look-ahead condition under which
`_remove_trailing_commas` drops a preceding comma. -/
def closingNext (cs : List Char) : Bool :=
  match (cs.dropWhile pyIsSpace).head? with
  | some d => d = '}' || d = ']'
  | none => false

/-- Characters the canonical encoder may emit outside string literals
without affecting the line scanner: not a backslash, quote or slash, and
no line break other than `\n`. -/
def outSafe (c : Char) : Bool :=
  !(c = '\\') && !(c = '"') && !(c = '/') && (!pyIsLineBreak c || c = '\n')

/-- Comma scanner for canonical encoder output: mirrors the state machine
of `_remove_trailing_commas` but rejects any comma outside a string whose
next non-whitespace character is missing or is a closing delimiter —
exactly the commas that pass would remove. -/
def commaScan (inStr esc : Bool) : List Char → Option (Bool × Bool)
  | [] => some (inStr, esc)
  | c :: cs =>
    if esc then commaScan inStr false cs
    else if c = '\\' then commaScan inStr true cs
    else if c = '"' then commaScan (!inStr) false cs
    else if !inStr && c = ',' then
      (if hasNext cs && !closingNext cs then commaScan inStr esc cs else none)
    else commaScan inStr esc cs

mutual

/-- Node count of a document tree, used as a fuel bound for the parser. -/
def jsize : PyValue → Nat
  | .obj ms => 1 + jsizeMembers ms
  | .arr vs => 1 + jsizeElems vs
  | .str _ => 1
  | .num _ => 1
  | .bool _ => 1
  | .null => 1
  | .unsupported _ => 1

/-- Node count of object members. -/
def jsizeMembers : List (String × PyValue) → Nat
  | [] => 0
  | (_, v) :: ms => 1 + jsize v + jsizeMembers ms

/-- Node count of array elements. -/
def jsizeElems : List PyValue → Nat
  | [] => 0
  | v :: vs => 1 + jsize v + jsizeElems vs

end

/-! ## Theorems: pattern merge engine -/

theorem get_patterns_to_add_eq_filter (cur ps : List String) :
    get_patterns_to_add cur ps = ps.filter (fun p => !cur.contains p) := by
  induction ps with
  | nil => rfl
  | cons p ps ih =>
    by_cases h : cur.contains p <;>
      simp [get_patterns_to_add, List.filter_cons, h, ih]

theorem count_get_patterns_to_add (cur ps : List String) (p : String) :
    (get_patterns_to_add cur ps).count p
      = if cur.contains p then 0 else ps.count p := by
  rw [get_patterns_to_add_eq_filter]
  by_cases hp : cur.contains p
  · rw [if_pos hp, List.count_eq_zero]
    intro hmem
    have h2 := (List.mem_filter.mp hmem).2
    rw [hp] at h2
    simp at h2
  · rw [if_neg hp]
    refine List.count_filter ?_
    simp only [Bool.not_eq_true']
    exact Bool.not_eq_true _ ▸ (by simpa using hp)

theorem contains_eq_true_iff_mem (l : List String) (a : String) :
    l.contains a = true ↔ a ∈ l :=
  List.elem_iff

/-- Claim C1: the merge operation returns exactly those candidates that
are not members of the set built from the existing list, in their original
candidate order (the filter characterisation); a candidate absent from the
existing list is selected as often as it occurs among the candidates
because the membership set is not updated (the count characterisation);
and appending the result after all existing entries keeps every existing
entry at its position with its value. -/
theorem merge_selects_exactly_new_candidates (existing candidates : List String) :
    get_patterns_to_add existing candidates
        = candidates.filter (fun p => !existing.contains p)
    ∧ (∀ p : String, (get_patterns_to_add existing candidates).count p
        = if existing.contains p then 0 else candidates.count p)
    ∧ (existing ++ get_patterns_to_add existing candidates).take existing.length
        = existing :=
  ⟨get_patterns_to_add_eq_filter existing candidates,
   fun p => count_get_patterns_to_add existing candidates p,
   List.take_left existing _⟩

/-- Claim C9: merging the same candidates again, after the first merge's
output has been appended to the existing list, yields no further
additions. -/
theorem merge_idempotent_after_append (existing candidates : List String) :
    get_patterns_to_add (existing ++ get_patterns_to_add existing candidates)
      candidates = [] := by
  rw [get_patterns_to_add_eq_filter, List.filter_eq_nil_iff]
  intro p hp
  simp only [Bool.not_eq_true', Bool.not_eq_false]
  rw [contains_eq_true_iff_mem]
  by_cases h : p ∈ existing
  · exact List.mem_append_left _ h
  · refine List.mem_append_right _ ?_
    rw [get_patterns_to_add_eq_filter, List.mem_filter]
    refine ⟨hp, ?_⟩
    simp only [Bool.not_eq_true']
    rw [← Bool.not_eq_true]
    rw [contains_eq_true_iff_mem]
    exact h

/-! ## Theorems: gitignore pattern transformation -/

theorem read_gitignore_patterns_lines_eq_filterMap (ls : List (List Char)) :
    read_gitignore_patterns_lines ls = ls.filterMap spec_pattern_of_line := by
  induction ls with
  | nil => rfl
  | cons line rest ih =>
    rw [read_gitignore_patterns_lines, List.filterMap_cons]
    by_cases hempty : pyStrip line = []
    · rw [if_neg (by simp [hempty]), show spec_pattern_of_line line = none from by
        simp [spec_pattern_of_line, hempty], ih]
    · by_cases hhash : (pyStrip line).head? = some '#'
      · rw [if_neg (by simp [hhash]), show spec_pattern_of_line line = none from by
          simp [spec_pattern_of_line, hempty, hhash], ih]
      · rw [if_pos ⟨hempty, hhash⟩]
        by_cases hpre : (pyStrip line).take 3 = ['*', '*', '/']
        · rw [show spec_pattern_of_line line = some (pyStrip line) from by
            simp [spec_pattern_of_line, hempty, hhash, hpre]]
          simp [hpre, ih]
        · rw [show spec_pattern_of_line line
              = some ('*' :: '*' :: '/' :: pyStrip line) from by
            simp [spec_pattern_of_line, hempty, hhash, hpre]]
          simp [hpre, ih]

/-- Claim C7: the gitignore reader applies, line by line, exactly the
transform described by the specification — empty lines and `#` comments
produce no pattern, `**/`-prefixed lines pass through unchanged, and all
other lines get the recursive-match marker prepended; in particular
`node_modules/` becomes `**/node_modules/`, `**/dist/` stays unchanged,
and a comment line or an empty line produces nothing. -/
theorem gitignore_line_transform (content : List Char) :
    read_gitignore_patterns content
        = (pySplitlines content).filterMap spec_pattern_of_line
    ∧ spec_pattern_of_line "node_modules/".data = some "**/node_modules/".data
    ∧ spec_pattern_of_line "**/dist/".data = some "**/dist/".data
    ∧ spec_pattern_of_line "# comment".data = none
    ∧ spec_pattern_of_line "".data = none :=
  ⟨read_gitignore_patterns_lines_eq_filterMap (pySplitlines content),
   by decide, by decide, by decide, by decide⟩

/-! ## Theorems: comment stripping and trailing-comma removal -/

theorem findCommentPos_eq_amended (l : List Char) :
    ∀ (inStr esc : Bool) (pos : Nat),
      findCommentPos inStr esc pos l = amendedFindComment (scanMode inStr esc) pos l := by
  induction l with
  | nil => intro inStr esc pos; cases inStr <;> cases esc <;> rfl
  | cons c cs ih =>
    intro inStr esc pos
    cases inStr <;> cases esc <;>
      simp only [findCommentPos, amendedFindComment, scanMode,
        ih false false, ih false true, ih true false, ih true true,
        Bool.not_false, Bool.not_true, Bool.false_and, Bool.true_and,
        if_true, if_false, Bool.false_eq_true, Bool.and_self] <;>
      split_ifs <;>
      first
        | rfl
        | simp_all

theorem removeTC_eq_amended (l : List Char) :
    ∀ (inStr esc : Bool),
      removeTC inStr esc l = amendedRemoveTC (scanMode inStr esc) l := by
  induction l with
  | nil => intro inStr esc; cases inStr <;> cases esc <;> rfl
  | cons c cs ih =>
    intro inStr esc
    cases inStr <;> cases esc <;>
      simp only [removeTC, amendedRemoveTC, scanMode,
        ih false false, ih false true, ih true false, ih true true,
        Bool.not_false, Bool.not_true, Bool.false_and, Bool.true_and,
        if_true, if_false, Bool.false_eq_true, Bool.and_self] <;>
      split_ifs <;>
      first
        | rfl
        | simp_all

/-- Claim C5 counterexample: on the line `\// x` the code does not strip a
comment (the backslash puts the scanner into its escape state, which
consumes the first slash even though no string is open), while the claim's
description — remove from the first `//` occurring outside a double-quoted
string — strips from position 1. -/
theorem comment_strip_claim_counterexample :
    strip_comment_line "\\// x".data ≠ claim_strip_comment_line "\\// x".data := by
  decide

/-- Claim C5 (amended): comment stripping removes exactly the text from
the first `//` recognised by the escape-aware scanner — the character
after any backslash is consumed by the escape state even outside strings,
a `//` inside a string literal is never a comment marker, and an escaped
quote does not toggle the in-string state — trimming the trailing
whitespace that precedes the comment; and decoding the scenario input
`{ // comment\n "a": 1, }` yields the object mapping key `a` to 1. -/
theorem comment_strip_escape_aware (l : List Char) :
    strip_comment_line l = amended_strip_comment_line l
    ∧ parse_json5 "\x7b // comment\n \"a\": 1, \x7d".data
        = some (.obj [("a", PyValue.num 1)]) := by
  constructor
  · unfold strip_comment_line amended_strip_comment_line
    rw [findCommentPos_eq_amended]
    rfl
  · rfl

/-- Claim C6 counterexample: in the text `x\,] y` the comma occurs outside
any double-quoted string and the next non-whitespace character is `]`, so
the claim requires it to be removed; the code keeps it because the
backslash puts the scanner into its escape state, which consumes the comma
before the removal check. -/
theorem trailing_comma_claim_counterexample :
    remove_trailing_commas "x\\,] y".data
      ≠ claim_remove_trailing_commas "x\\,] y".data := by
  decide

/-- Claim C6 (amended): trailing-comma removal removes a comma iff the
escape-aware scanner reads it outside a double-quoted string in a
non-escape state (the character after any backslash is consumed by the
escape state, even outside strings) and the next non-whitespace character
is a closing delimiter; every other character, including every comma
inside a string literal and every comma followed by a non-delimiter, is
preserved verbatim and in order — as witnessed on concrete inputs. -/
theorem trailing_comma_escape_aware (content : List Char) :
    remove_trailing_commas content = amended_remove_trailing_commas content
    ∧ remove_trailing_commas "[1, 2,]".data = "[1, 2]".data
    ∧ remove_trailing_commas "\x7b\"a,]\": \"b,\"\x7d".data = "\x7b\"a,]\": \"b,\"\x7d".data
    ∧ remove_trailing_commas "[1, 2]".data = "[1, 2]".data := by
  refine ⟨?_, by decide, by decide, by decide⟩
  exact removeTC_eq_amended content false false

/-! ## Theorems: whitespace and scanner plumbing for the round trip -/

theorem skipWs_cons_of_not (c : Char) (l : List Char) (h : jsonWs c = false) :
    skipWs (c :: l) = c :: l := by
  simp [skipWs, List.dropWhile_cons, h]

theorem skipWs_nl (l : List Char) : skipWs ('\n' :: l) = skipWs l := by
  simp [skipWs, List.dropWhile_cons, show jsonWs '\n' = true from rfl]

theorem skipWs_spaces (n : Nat) (l : List Char) :
    skipWs (spaces n ++ l) = skipWs l := by
  induction n with
  | zero => rfl
  | succ n ih =>
    rw [spaces, List.replicate_succ, List.cons_append]
    show skipWs (' ' :: (spaces n ++ l)) = skipWs l
    rw [show skipWs (' ' :: (spaces n ++ l)) = skipWs (spaces n ++ l) from by
      simp [skipWs, List.dropWhile_cons, show jsonWs ' ' = true from rfl]]
    exact ih

theorem lineScan_append (a : List Char) :
    ∀ (b : List Char) (s1 s2 : Bool),
      lineScan s1 s2 (a ++ b)
        = (lineScan s1 s2 a).bind (fun st => lineScan st.1 st.2 b) := by
  induction a with
  | nil => intro b s1 s2; simp [lineScan]
  | cons c a ih =>
    intro b s1 s2
    rw [List.cons_append]
    show lineScan s1 s2 (c :: (a ++ b)) = _
    rw [lineScan, lineScan]
    split_ifs <;> simp [ih]

theorem dropWhile_append_of_cons {p : Char → Bool} {a : List Char}
    {d : Char} {t : List Char} (h : a.dropWhile p = d :: t) (b : List Char) :
    (a ++ b).dropWhile p = d :: (t ++ b) := by
  induction a with
  | nil => simp at h
  | cons x a ih =>
    rw [List.dropWhile_cons] at h
    rw [List.cons_append, List.dropWhile_cons]
    by_cases hp : p x
    · rw [if_pos hp] at h ⊢
      exact ih h
    · rw [if_neg hp] at h ⊢
      obtain ⟨rfl, rfl⟩ : x = d ∧ a = t := by
        injection h with h1 h2; exact ⟨h1, h2⟩
      rfl

theorem dropWhile_head_append {a : List Char} {d : Char}
    (h : (a.dropWhile pyIsSpace).head? = some d) (b : List Char) :
    ((a ++ b).dropWhile pyIsSpace).head? = some d := by
  cases hdw : a.dropWhile pyIsSpace with
  | nil => rw [hdw] at h; exact absurd h (by simp)
  | cons x t =>
    rw [hdw] at h
    obtain rfl : x = d := by injection h
    rw [dropWhile_append_of_cons hdw b]
    rfl

theorem hasNext_append {a : List Char} (b : List Char) (h : hasNext a = true) :
    hasNext (a ++ b) = true := by
  unfold hasNext at h ⊢
  cases hh : (a.dropWhile pyIsSpace).head? with
  | none => rw [hh] at h; simp at h
  | some d => rw [dropWhile_head_append hh]; rfl

theorem closingNext_append {a : List Char} (b : List Char)
    (h : hasNext a = true) : closingNext (a ++ b) = closingNext a := by
  unfold hasNext at h
  unfold closingNext
  cases hh : (a.dropWhile pyIsSpace).head? with
  | none => rw [hh] at h; simp at h
  | some d => simp [dropWhile_head_append hh b, hh]

theorem commaScan_append (a : List Char) :
    ∀ (b : List Char) (s1 s2 : Bool) (st st' : Bool × Bool),
      commaScan s1 s2 a = some st →
      commaScan st.1 st.2 b = some st' →
      commaScan s1 s2 (a ++ b) = some st' := by
  induction a with
  | nil =>
    intro b s1 s2 st st' ha hb
    rw [show st = (s1, s2) from (Option.some.inj ha).symm] at hb
    exact hb
  | cons c a ih =>
    intro b s1 s2 st st' ha hb
    rw [List.cons_append]
    rw [commaScan] at ha
    rw [commaScan]
    by_cases h1 : s2 = true
    · rw [if_pos h1] at ha ⊢
      exact ih b _ _ st st' ha hb
    · rw [if_neg h1] at ha ⊢
      by_cases h2 : c = '\\'
      · rw [if_pos h2] at ha ⊢
        exact ih b _ _ st st' ha hb
      · rw [if_neg h2] at ha ⊢
        by_cases h3 : c = '"'
        · rw [if_pos h3] at ha ⊢
          exact ih b _ _ st st' ha hb
        · rw [if_neg h3] at ha ⊢
          by_cases h4 : (!s1 && c = ',') = true
          · rw [if_pos h4] at ha ⊢
            by_cases h5 : (hasNext a && !closingNext a) = true
            · rw [if_pos h5] at ha
              have h5' : hasNext a = true ∧ closingNext a = false := by
                simpa using h5
              rw [if_pos (show (hasNext (a ++ b) && !closingNext (a ++ b)) = true
                from by
                  rw [hasNext_append b h5'.1, closingNext_append b h5'.1,
                    h5'.2]
                  rfl)]
              exact ih b _ _ st st' ha hb
            · rw [if_neg h5] at ha
              exact absurd ha (by simp)
          · rw [if_neg h4] at ha ⊢
            exact ih b _ _ st st' ha hb

theorem removeTC_cons_comma (cs : List Char) :
    removeTC false false (',' :: cs)
      = if closingNext cs then removeTC false false cs
        else ',' :: removeTC false false cs := by
  cases hdw : cs.dropWhile pyIsSpace with
  | nil => simp [removeTC, closingNext, hdw]
  | cons d t =>
    by_cases hd : (d = '}' || d = ']') = true <;>
      simp [removeTC, closingNext, hdw, hd]

theorem removeTC_id (cs : List Char) :
    ∀ (s1 s2 : Bool) (st : Bool × Bool),
      commaScan s1 s2 cs = some st → removeTC s1 s2 cs = cs := by
  induction cs with
  | nil => intro s1 s2 st _; rfl
  | cons c cs ih =>
    intro s1 s2 st ha
    rw [commaScan] at ha
    split_ifs at ha with h1 h2 h3 h4 h5
    · rw [removeTC, if_pos h1]
      exact congrArg (c :: ·) (ih _ _ st ha)
    · rw [removeTC, if_neg h1, if_pos h2]
      exact congrArg (c :: ·) (ih _ _ st ha)
    · rw [removeTC, if_neg h1, if_neg h2, if_pos h3]
      exact congrArg (c :: ·) (ih _ _ st ha)
    · -- comma kept: the look-ahead character exists and is not closing
      obtain ⟨hs1', hc'⟩ : s1 = false ∧ c = ',' := by simpa using h4
      have hs2' : s2 = false := by
        cases s2 with
        | false => rfl
        | true => exact absurd rfl h1
      subst hs1'; subst hc'; subst hs2'
      have hclose : closingNext cs = false := by
        have h5' : hasNext cs = true ∧ closingNext cs = false := by
          simpa using h5
        exact h5'.2
      rw [removeTC_cons_comma, hclose]
      rw [if_neg (by simp)]
      exact congrArg (',' :: ·) (ih _ _ st ha)
    · rw [removeTC, if_neg h1, if_neg h2, if_neg h3, if_neg h4]
      exact congrArg (c :: ·) (ih _ _ st ha)

theorem findCommentPos_none (cs : List Char) :
    ∀ (s1 s2 : Bool) (st : Bool × Bool) (pos : Nat),
      lineScan s1 s2 cs = some st → findCommentPos s1 s2 pos cs = none := by
  induction cs with
  | nil => intro _ _ _ _ _; rfl
  | cons c cs ih =>
    intro s1 s2 st pos ha
    rw [lineScan] at ha
    rw [findCommentPos]
    by_cases h1 : s2 = true
    · rw [if_pos h1] at ha ⊢
      by_cases hb : pyIsLineBreak c = true
      · rw [if_pos hb] at ha; exact absurd ha (by simp)
      · rw [if_neg hb] at ha; exact ih _ _ st _ ha
    · rw [if_neg h1] at ha ⊢
      have hs2 : s2 = false := by
        cases s2 with
        | false => rfl
        | true => exact absurd rfl h1
      subst hs2
      by_cases h2 : c = '\\'
      · rw [if_pos h2] at ha ⊢
        by_cases hin : s1 = true
        · rw [if_pos hin] at ha; exact ih _ _ st _ ha
        · rw [if_neg hin] at ha; exact absurd ha (by simp)
      · rw [if_neg h2] at ha ⊢
        by_cases h3 : c = '"'
        · rw [if_pos h3] at ha ⊢
          exact ih _ _ st _ ha
        · rw [if_neg h3] at ha ⊢
          by_cases hin : s1 = true
          · rw [if_pos hin] at ha
            by_cases hb : pyIsLineBreak c = true
            · rw [if_pos hb] at ha; exact absurd ha (by simp)
            · rw [if_neg hb] at ha
              rw [if_neg (show ¬((!s1 && c = '/' && cs.head? = some '/') = true)
                from by rw [hin]; simp)]
              exact ih _ _ st _ ha
          · -- outside a string
            rw [if_neg hin] at ha
            by_cases hsl : (c = '/' || (pyIsLineBreak c && !(c = '\n'))) = true
            · rw [if_pos hsl] at ha
              exact absurd ha (by simp)
            · rw [if_neg hsl] at ha
              have hcslash : c ≠ '/' := by
                intro hcc
                exact hsl (by rw [hcc]; rfl)
              rw [if_neg (show ¬((!s1 && c = '/' && cs.head? = some '/') = true)
                from by simp [hcslash])]
              exact ih _ _ st _ ha


/-! ## Theorems: splitlines and comment stripping on canonical text -/

set_option maxHeartbeats 1600000 in
theorem pySplitlinesAux_ne_nil (cs : List Char) : pySplitlinesAux cs ≠ [] := by
  rw [pySplitlinesAux.eq_def]
  split
  · simp
  · simp
  · split_ifs
    · simp
    · unfold consHead
      split <;> simp

theorem pySplitlinesAux_cons_not_cr (x : Char) (rest : List Char)
    (hx : x ≠ '\r') :
    pySplitlinesAux (x :: rest)
      = if pyIsLineBreak x then [] :: pySplitlinesAux rest
        else consHead x (pySplitlinesAux rest) := by
  rw [pySplitlinesAux.eq_def]
  split
  · rename_i heq
    exact absurd heq (by simp)
  · rename_i r heq
    injection heq with h1 h2
    exact absurd h1 hx
  · rename_i c r hno heq
    injection heq with h1 h2
    subst h1
    subst h2
    rfl

theorem joinNl_single (a : List Char) : joinNl [a] = a := by
  simp [joinNl, List.intercalate, List.intersperse]

theorem joinNl_cons (a : List Char) (ls : List (List Char)) (h : ls ≠ []) :
    joinNl (a :: ls) = a ++ '\n' :: joinNl ls := by
  cases ls with
  | nil => exact absurd rfl h
  | cons b t => simp [joinNl, List.intercalate, List.intersperse]

theorem pySplitlinesAux_no_breaks (cs : List Char)
    (h : ∀ c ∈ cs, pyIsLineBreak c = false) : pySplitlinesAux cs = [cs] := by
  induction cs with
  | nil => rfl
  | cons x rest ih =>
    have hx : pyIsLineBreak x = false := h x (List.mem_cons_self x rest)
    have hrest : pySplitlinesAux rest = [rest] :=
      ih (fun c hc => h c (List.mem_cons_of_mem x hc))
    have hxr : x ≠ '\r' := by
      intro hh; rw [hh] at hx; exact absurd hx (by decide)
    rw [pySplitlinesAux_cons_not_cr x rest hxr, if_neg (by simp [hx]), hrest]
    rfl

theorem pySplitlinesAux_split_nl (l : List Char)
    (h : ∀ c ∈ l, pyIsLineBreak c = false) (rest : List Char) :
    pySplitlinesAux (l ++ '\n' :: rest) = l :: pySplitlinesAux rest := by
  induction l with
  | nil =>
    rw [List.nil_append,
      pySplitlinesAux_cons_not_cr '\n' rest (by decide),
      if_pos (by decide)]
  | cons x l ih =>
    have hx : pyIsLineBreak x = false := h x (List.mem_cons_self x l)
    have hxr : x ≠ '\r' := by
      intro hh; rw [hh] at hx; exact absurd hx (by decide)
    have hih := ih (fun c hc => h c (List.mem_cons_of_mem x hc))
    rw [List.cons_append,
      pySplitlinesAux_cons_not_cr x (l ++ '\n' :: rest) hxr,
      if_neg (by simp [hx]), hih]
    rfl

theorem pySplitlinesAux_singleton_empty (cs : List Char)
    (h : pySplitlinesAux cs = [[]]) : cs = [] := by
  revert h
  rw [pySplitlinesAux.eq_def]
  split
  · intro _
    rfl
  · rename_i r
    intro h
    injection h with _ h2
    exact absurd h2 (pySplitlinesAux_ne_nil _)
  · rename_i c r hno
    intro h
    exfalso
    split_ifs at h
    · injection h with _ h2
      exact absurd h2 (pySplitlinesAux_ne_nil _)
    · unfold consHead at h
      revert h
      split
      · intro h
        injection h with h1 _
        exact List.noConfusion h1
      · intro h
        injection h with h1 _
        exact List.noConfusion h1

theorem pySplitlines_ne_nil (cs : List Char) (h : cs ≠ []) :
    pySplitlines cs ≠ [] := by
  unfold pySplitlines
  intro hc
  split_ifs at hc with hlast
  · -- the dropped-last case: the list would need length 1 with empty entry
    cases haux : pySplitlinesAux cs with
    | nil => exact absurd haux (pySplitlinesAux_ne_nil cs)
    | cons a t =>
      rw [haux] at hc hlast
      cases t with
      | nil =>
        simp at hlast
        exact h (pySplitlinesAux_singleton_empty cs (by rw [haux, hlast]))
      | cons b t2 => simp at hc
  · exact absurd hc (pySplitlinesAux_ne_nil cs)

theorem pySplitlines_cons_of_aux (cs rest : List Char) (l : List Char)
    (h : pySplitlinesAux cs = l :: pySplitlinesAux rest) :
    pySplitlines cs = l :: pySplitlines rest := by
  unfold pySplitlines
  rw [h]
  cases haux : pySplitlinesAux rest with
  | nil => exact absurd haux (pySplitlinesAux_ne_nil rest)
  | cons b t =>
    rw [List.getLast?_cons_cons]
    by_cases hlast : (b :: t).getLast? = some []
    · rw [if_pos hlast, if_pos hlast]
      rfl
    · rw [if_neg hlast, if_neg hlast]

theorem lineScan_prefix (a b : List Char) (s1 s2 : Bool) (st : Bool × Bool)
    (h : lineScan s1 s2 (a ++ b) = some st) :
    ∃ stm : Bool × Bool,
      lineScan s1 s2 a = some stm ∧ lineScan stm.1 stm.2 b = some st := by
  rw [lineScan_append] at h
  cases ha : lineScan s1 s2 a with
  | none => rw [ha] at h; exact absurd h (by simp)
  | some stm =>
    rw [ha] at h
    exact ⟨stm, rfl, h⟩

theorem lineScan_nl_state (rest : List Char) (s1 s2 : Bool) (st : Bool × Bool)
    (h : lineScan s1 s2 ('\n' :: rest) = some st) :
    s1 = false ∧ s2 = false ∧ lineScan false false rest = some st := by
  rw [lineScan] at h
  by_cases h1 : s2 = true
  · rw [if_pos h1, if_pos (by decide)] at h
    exact absurd h (by simp)
  · rw [if_neg h1] at h
    have hs2 : s2 = false := by
      cases s2 with
      | false => rfl
      | true => exact absurd rfl h1
    subst hs2
    rw [if_neg (by decide), if_neg (by decide)] at h
    by_cases hin : s1 = true
    · rw [if_pos hin, if_pos (by decide)] at h
      exact absurd h (by simp)
    · have hs1 : s1 = false := by
        cases s1 with
        | false => rfl
        | true => exact absurd rfl hin
      subst hs1
      rw [if_neg (by decide), if_neg (by decide)] at h
      exact ⟨rfl, rfl, h⟩

theorem lineScan_break_only_nl (cs : List Char) :
    ∀ (s1 s2 : Bool) (st : Bool × Bool), lineScan s1 s2 cs = some st →
      ∀ c ∈ cs, pyIsLineBreak c = true → c = '\n' := by
  induction cs with
  | nil => intro _ _ _ _ c hc; exact absurd hc (List.not_mem_nil c)
  | cons x cs ih =>
    intro s1 s2 st ha c hc hbr
    rw [lineScan] at ha
    by_cases h1 : s2 = true
    · rw [if_pos h1] at ha
      by_cases hb : pyIsLineBreak x = true
      · rw [if_pos hb] at ha; exact absurd ha (by simp)
      · rw [if_neg hb] at ha
        rcases List.mem_cons.mp hc with rfl | hmem
        · exact absurd hbr hb
        · exact ih _ _ st ha c hmem hbr
    · rw [if_neg h1] at ha
      by_cases h2 : x = '\\'
      · rw [if_pos h2] at ha
        by_cases hin : s1 = true
        · rw [if_pos hin] at ha
          rcases List.mem_cons.mp hc with rfl | hmem
          · rw [h2] at hbr; exact absurd hbr (by decide)
          · exact ih _ _ st ha c hmem hbr
        · rw [if_neg hin] at ha; exact absurd ha (by simp)
      · rw [if_neg h2] at ha
        by_cases h3 : x = '"'
        · rw [if_pos h3] at ha
          rcases List.mem_cons.mp hc with rfl | hmem
          · rw [h3] at hbr; exact absurd hbr (by decide)
          · exact ih _ _ st ha c hmem hbr
        · rw [if_neg h3] at ha
          by_cases hin : s1 = true
          · rw [if_pos hin] at ha
            by_cases hb : pyIsLineBreak x = true
            · rw [if_pos hb] at ha; exact absurd ha (by simp)
            · rw [if_neg hb] at ha
              rcases List.mem_cons.mp hc with rfl | hmem
              · exact absurd hbr hb
              · exact ih _ _ st ha c hmem hbr
          · rw [if_neg hin] at ha
            by_cases hsl : (x = '/' || (pyIsLineBreak x && !(x = '\n'))) = true
            · rw [if_pos hsl] at ha; exact absurd ha (by simp)
            · rw [if_neg hsl] at ha
              rcases List.mem_cons.mp hc with rfl | hmem
              · by_cases hnl : c = '\n'
                · exact hnl
                · exact absurd (show (c = '/' || (pyIsLineBreak c && !(c = '\n')))
                      = true from by simp [hbr, hnl]) hsl
              · exact ih _ _ st ha c hmem hbr

theorem dropWhile_head_pred_false {p : Char → Bool} :
    ∀ {l : List Char} {d : Char} {t : List Char},
      l.dropWhile p = d :: t → p d = false := by
  intro l
  induction l with
  | nil => intro d t h; simp at h
  | cons x xs ih =>
    intro d t h
    rw [List.dropWhile_cons] at h
    by_cases hp : p x
    · rw [if_pos hp] at h; exact ih h
    · rw [if_neg hp] at h
      injection h with h1 _
      rw [← h1]
      simpa using hp

theorem strip_comment_line_of_scan (l : List Char) (st : Bool × Bool)
    (h : lineScan false false l = some st) : strip_comment_line l = l := by
  unfold strip_comment_line
  rw [findCommentPos_none l false false st 0 h]

theorem strip_comments_single (cs : List Char)
    (hnb : ∀ c ∈ cs, pyIsLineBreak c = false)
    (hstrip : strip_comment_line cs = cs) (hne : cs ≠ []) :
    strip_comments cs = cs := by
  unfold strip_comments
  rw [show pySplitlines cs = [cs] from by
    unfold pySplitlines
    rw [pySplitlinesAux_no_breaks cs hnb]
    rw [if_neg (by simp [hne])]]
  rw [List.map_cons, List.map_nil, hstrip, joinNl_single]

theorem strip_comments_concat (l rest : List Char)
    (hlnb : ∀ c ∈ l, pyIsLineBreak c = false) (hrne : rest ≠ [])
    (hstrip : strip_comment_line l = l)
    (hrec : strip_comments rest = rest) :
    strip_comments (l ++ '\n' :: rest) = l ++ '\n' :: rest := by
  unfold strip_comments
  rw [pySplitlines_cons_of_aux (l ++ '\n' :: rest) rest l
    (pySplitlinesAux_split_nl l hlnb rest)]
  rw [List.map_cons, hstrip]
  rw [joinNl_cons _ _ (by
    intro hmapnil
    exact (pySplitlines_ne_nil rest hrne) (List.map_eq_nil.mp hmapnil))]
  have hr : joinNl ((pySplitlines rest).map strip_comment_line) = rest := hrec
  rw [hr]

theorem strip_comments_id_bound :
    ∀ (n : Nat) (cs : List Char), cs.length ≤ n →
      ∀ st : Bool × Bool, lineScan false false cs = some st →
      cs.getLast? ≠ some '\n' → strip_comments cs = cs := by
  intro n
  induction n with
  | zero =>
    intro cs hlen st h hlast
    rw [List.length_eq_zero.mp (Nat.le_zero.mp hlen)]
    rfl
  | succ n ih =>
    intro cs hlen st h hlast
    by_cases hnil : cs = []
    · rw [hnil]; rfl
    · have hsplit : cs.takeWhile (fun c => !(c = '\n'))
          ++ cs.dropWhile (fun c => !(c = '\n')) = cs :=
        List.takeWhile_append_dropWhile _ _
      have hlnb : ∀ c ∈ cs.takeWhile (fun c => !(c = '\n')),
          pyIsLineBreak c = false := by
        intro c hc
        have hcnl : (!(c = '\n')) = true :=
          @List.mem_takeWhile_imp Char (fun c => !(c = '\n')) cs c hc
        have hcmem : c ∈ cs := by
          rw [← hsplit]; exact List.mem_append_left _ hc
        by_cases hbr : pyIsLineBreak c = true
        · have hceq := lineScan_break_only_nl cs false false st h c hcmem hbr
          rw [hceq] at hcnl
          simp at hcnl
        · simpa using hbr
      cases hrr : cs.dropWhile (fun c => !(c = '\n')) with
      | nil =>
        have hcseq : cs = cs.takeWhile (fun c => !(c = '\n')) := by
          conv_lhs => rw [← hsplit]
          rw [hrr, List.append_nil]
        refine strip_comments_single cs ?_ (strip_comment_line_of_scan _ _ h) hnil
        intro c hc
        rw [hcseq] at hc
        exact hlnb c hc
      | cons d rest =>
        have hd : d = '\n' := by
          have hpd := dropWhile_head_pred_false hrr
          simpa using hpd
        subst hd
        have hcs : cs.takeWhile (fun c => !(c = '\n')) ++ '\n' :: rest = cs := by
          rw [← hrr]; exact hsplit
        rw [← hcs] at h hlast ⊢
        obtain ⟨stm, hstl, hstr⟩ := lineScan_prefix _ _ _ _ _ h
        obtain ⟨_, _, hrest⟩ := lineScan_nl_state rest stm.1 stm.2 st hstr
        have hrne : rest ≠ [] := by
          intro hre
          rw [hre] at hlast
          exact hlast (List.getLast?_concat _)
        have hlastr : rest.getLast? ≠ some '\n' := by
          intro hlr
          apply hlast
          rw [List.getLast?_append_of_ne_nil _ (by simp)]
          cases rest with
          | nil => exact absurd rfl hrne
          | cons b t => rw [List.getLast?_cons_cons]; exact hlr
        have hlenr : rest.length ≤ n := by
          have hlcs := congrArg List.length hcs
          rw [List.length_append, List.length_cons] at hlcs
          omega
        exact strip_comments_concat _ rest hlnb hrne
          (strip_comment_line_of_scan _ stm hstl)
          (ih rest hlenr st hrest hlastr)

theorem strip_comments_id (cs : List Char) (st : Bool × Bool)
    (h : lineScan false false cs = some st)
    (hlast : cs.getLast? ≠ some '\n') : strip_comments cs = cs :=
  strip_comments_id_bound cs.length cs (Nat.le_refl _) st h hlast

/-! ## Theorems: string-literal round trip -/

theorem hexVal_hexDigitChar (k : Nat) (hk : k < 16) :
    hexVal? (hexDigitChar k) = some k := by
  interval_cases k <;> rfl

theorem parseSB_quote (acc rest : List Char) :
    parseStringBody acc ('"' :: rest) = some (String.mk acc, rest) := rfl

theorem parseSB_esc_quote (acc rest : List Char) :
    parseStringBody acc ('\\' :: '"' :: rest)
      = parseStringBody (acc ++ ['"']) rest := rfl

theorem parseSB_esc_backslash (acc rest : List Char) :
    parseStringBody acc ('\\' :: '\\' :: rest)
      = parseStringBody (acc ++ ['\\']) rest := rfl

theorem parseSB_esc_n (acc rest : List Char) :
    parseStringBody acc ('\\' :: 'n' :: rest)
      = parseStringBody (acc ++ ['\n']) rest := rfl

theorem parseSB_esc_r (acc rest : List Char) :
    parseStringBody acc ('\\' :: 'r' :: rest)
      = parseStringBody (acc ++ ['\r']) rest := rfl

theorem parseSB_esc_t (acc rest : List Char) :
    parseStringBody acc ('\\' :: 't' :: rest)
      = parseStringBody (acc ++ ['\t']) rest := rfl

theorem parseSB_esc_b (acc rest : List Char) :
    parseStringBody acc ('\\' :: 'b' :: rest)
      = parseStringBody (acc ++ ['\x08']) rest := rfl

theorem parseSB_esc_f (acc rest : List Char) :
    parseStringBody acc ('\\' :: 'f' :: rest)
      = parseStringBody (acc ++ ['\x0c']) rest := rfl

theorem parseSB_esc_u (acc : List Char) (h1 h2 h3 h4 : Char)
    (rest : List Char) (a b cc d : Nat)
    (ha : hexVal? h1 = some a) (hb : hexVal? h2 = some b)
    (hc : hexVal? h3 = some cc) (hd : hexVal? h4 = some d) :
    parseStringBody acc ('\\' :: 'u' :: h1 :: h2 :: h3 :: h4 :: rest)
      = parseStringBody
          (acc ++ [Char.ofNat (((a * 16 + b) * 16 + cc) * 16 + d)]) rest := by
  rw [show parseStringBody acc ('\\' :: 'u' :: h1 :: h2 :: h3 :: h4 :: rest)
      = (match hexVal? h1, hexVal? h2, hexVal? h3, hexVal? h4 with
         | some a, some b, some c, some d =>
             parseStringBody
               (acc ++ [Char.ofNat (((a * 16 + b) * 16 + c) * 16 + d)]) rest
         | _, _, _, _ => none) from rfl, ha, hb, hc, hd]

theorem parseSB_plain (acc : List Char) (c : Char) (rest : List Char)
    (h1 : c ≠ '"') (h2 : c ≠ '\\') :
    parseStringBody acc (c :: rest)
      = if c.toNat < 0x20 then none
        else parseStringBody (acc ++ [c]) rest := by
  rw [parseStringBody.eq_def]
  split
  · rename_i heq
    exact absurd heq (by simp)
  · rename_i r heq
    injection heq with hh _
    exact absurd hh h1
  · rename_i e r heq
    injection heq with hh _
    exact absurd hh h2
  · rename_i heq
    injection heq with hh _
    exact absurd hh h2
  · rename_i c2 r hno heq
    injection heq with hh1 hh2
    subst hh1
    subst hh2
    rfl

theorem parseStringBody_enc (l : List Char) :
    ∀ (acc rest : List Char),
      parseStringBody acc (enc_string_body l ++ '"' :: rest)
        = some (String.mk (acc ++ l), rest) := by
  induction l with
  | nil =>
    intro acc rest
    rw [enc_string_body, List.nil_append, parseSB_quote, List.append_nil]
  | cons c l ih =>
    intro acc rest
    rw [enc_string_body, List.append_assoc]
    rw [enc_char]
    split_ifs with h1 h2 h3 h4 h5 h6 h7 h8
    · subst h1
      rw [show (['\\', '"'] : List Char) ++ (enc_string_body l ++ '"' :: rest)
          = '\\' :: '"' :: (enc_string_body l ++ '"' :: rest) from rfl,
        parseSB_esc_quote, ih, List.append_assoc]
      rfl
    · subst h2
      rw [show (['\\', '\\'] : List Char) ++ (enc_string_body l ++ '"' :: rest)
          = '\\' :: '\\' :: (enc_string_body l ++ '"' :: rest) from rfl,
        parseSB_esc_backslash, ih, List.append_assoc]
      rfl
    · subst h3
      rw [show (['\\', 'n'] : List Char) ++ (enc_string_body l ++ '"' :: rest)
          = '\\' :: 'n' :: (enc_string_body l ++ '"' :: rest) from rfl,
        parseSB_esc_n, ih, List.append_assoc]
      rfl
    · subst h4
      rw [show (['\\', 'r'] : List Char) ++ (enc_string_body l ++ '"' :: rest)
          = '\\' :: 'r' :: (enc_string_body l ++ '"' :: rest) from rfl,
        parseSB_esc_r, ih, List.append_assoc]
      rfl
    · subst h5
      rw [show (['\\', 't'] : List Char) ++ (enc_string_body l ++ '"' :: rest)
          = '\\' :: 't' :: (enc_string_body l ++ '"' :: rest) from rfl,
        parseSB_esc_t, ih, List.append_assoc]
      rfl
    · subst h6
      rw [show (['\\', 'b'] : List Char) ++ (enc_string_body l ++ '"' :: rest)
          = '\\' :: 'b' :: (enc_string_body l ++ '"' :: rest) from rfl,
        parseSB_esc_b, ih, List.append_assoc]
      rfl
    · subst h7
      rw [show (['\\', 'f'] : List Char) ++ (enc_string_body l ++ '"' :: rest)
          = '\\' :: 'f' :: (enc_string_body l ++ '"' :: rest) from rfl,
        parseSB_esc_f, ih, List.append_assoc]
      rfl
    · -- the generic control-character escape
      rw [show (['\\', 'u', '0', '0', hexDigitChar (c.toNat / 16),
          hexDigitChar (c.toNat % 16)] : List Char)
          ++ (enc_string_body l ++ '"' :: rest)
          = '\\' :: 'u' :: '0' :: '0' :: hexDigitChar (c.toNat / 16)
            :: hexDigitChar (c.toNat % 16)
            :: (enc_string_body l ++ '"' :: rest) from rfl]
      rw [parseSB_esc_u acc '0' '0' (hexDigitChar (c.toNat / 16))
        (hexDigitChar (c.toNat % 16)) (enc_string_body l ++ '"' :: rest)
        0 0 (c.toNat / 16) (c.toNat % 16) rfl rfl
        (hexVal_hexDigitChar _ (by omega))
        (hexVal_hexDigitChar _ (by omega))]
      rw [show ((0 * 16 + 0) * 16 + c.toNat / 16) * 16 + c.toNat % 16
          = c.toNat from by omega]
      rw [Char.ofNat_toNat, ih, List.append_assoc]
      rfl
    · -- plain character
      rw [show ([c] : List Char) ++ (enc_string_body l ++ '"' :: rest)
          = c :: (enc_string_body l ++ '"' :: rest) from rfl,
        parseSB_plain _ _ _ h1 h2, if_neg h8, ih, List.append_assoc]
      rfl

theorem parseStringBody_enc_string (s : String) (rest : List Char) :
    parseStringBody [] (enc_string_body s.data ++ '"' :: rest)
      = some (s, rest) := by
  rw [parseStringBody_enc s.data [] rest, List.nil_append]

/-! ## Theorems: integer numeral round trip -/

theorem digitsVal_append (l1 : List Char) :
    ∀ (l2 : List Char) (acc : Nat),
      digitsVal acc (l1 ++ l2) = digitsVal (digitsVal acc l1) l2 := by
  induction l1 with
  | nil => intro l2 acc; rfl
  | cons d l1 ih =>
    intro l2 acc
    rw [List.cons_append]
    rw [show digitsVal acc (d :: (l1 ++ l2))
        = digitsVal (acc * 10 + digitVal d) (l1 ++ l2) from rfl]
    rw [show digitsVal acc (d :: l1)
        = digitsVal (acc * 10 + digitVal d) l1 from rfl]
    exact ih l2 _

theorem digitVal_digitChar (k : Nat) (hk : k < 10) :
    digitVal (digitChar k) = k := by
  interval_cases k <;> rfl

theorem isDigitChar_digitChar (k : Nat) : isDigitChar (digitChar k) = true := by
  unfold digitChar
  split <;> rfl

theorem natToDigitsAux_ne_nil (fuel n : Nat) :
    natToDigitsAux (fuel + 1) n ≠ [] := by
  rw [natToDigitsAux]
  split_ifs <;> simp

theorem natToDigitsAux_digits (fuel : Nat) :
    ∀ (n : Nat), ∀ c ∈ natToDigitsAux fuel n, isDigitChar c = true := by
  induction fuel with
  | zero => intro n c hc; exact absurd hc (List.not_mem_nil c)
  | succ fuel ih =>
    intro n c hc
    rw [natToDigitsAux] at hc
    split_ifs at hc
    · rcases List.mem_singleton.mp hc with rfl
      exact isDigitChar_digitChar n
    · rcases List.mem_append.mp hc with hm | hm
      · exact ih (n / 10) c hm
      · rcases List.mem_singleton.mp hm with rfl
        exact isDigitChar_digitChar (n % 10)

theorem digitsVal_natToDigitsAux (fuel : Nat) :
    ∀ (n : Nat), n < 10 ^ fuel → digitsVal 0 (natToDigitsAux fuel n) = n := by
  induction fuel with
  | zero =>
    intro n hn
    rw [Nat.pow_zero] at hn
    rw [show n = 0 from by omega]
    rfl
  | succ fuel ih =>
    intro n hn
    rw [natToDigitsAux]
    split_ifs with h10
    · rw [show digitsVal 0 [digitChar n] = 0 * 10 + digitVal (digitChar n)
        from rfl, digitVal_digitChar n h10]
      omega
    · rw [digitsVal_append]
      have hdiv : n / 10 < 10 ^ fuel := by
        rw [Nat.div_lt_iff_lt_mul (by omega)]
        calc n < 10 ^ (fuel + 1) := hn
        _ = 10 ^ fuel * 10 := by rw [Nat.pow_succ]
      rw [ih (n / 10) hdiv]
      rw [show digitsVal (n / 10) [digitChar (n % 10)]
          = (n / 10) * 10 + digitVal (digitChar (n % 10)) from rfl,
        digitVal_digitChar (n % 10) (by omega)]
      omega

theorem natToDigits_ne_nil (n : Nat) : natToDigits n ≠ [] :=
  natToDigitsAux_ne_nil n n

theorem natToDigits_digits (n : Nat) :
    ∀ c ∈ natToDigits n, isDigitChar c = true :=
  natToDigitsAux_digits (n + 1) n

theorem digitsVal_natToDigits (n : Nat) : digitsVal 0 (natToDigits n) = n := by
  refine digitsVal_natToDigitsAux (n + 1) n ?_
  calc n < 10 ^ n := Nat.lt_pow_self (by omega) n
  _ ≤ 10 ^ (n + 1) := Nat.pow_le_pow_right (by omega) (Nat.le_succ n)

theorem takeWhile_append_all {p : Char → Bool} (a : List Char) :
    ∀ (b : List Char), (∀ c ∈ a, p c = true) →
      (∀ c, b.head? = some c → p c = false) →
      (a ++ b).takeWhile p = a ∧ (a ++ b).dropWhile p = b := by
  induction a with
  | nil =>
    intro b _ h2
    cases b with
    | nil => exact ⟨rfl, rfl⟩
    | cons d t =>
      have hd : p d = false := h2 d rfl
      rw [List.nil_append]
      constructor
      · rw [List.takeWhile_cons, if_neg (by simp [hd])]
      · rw [List.dropWhile_cons, if_neg (by simp [hd])]
  | cons x a ih =>
    intro b h1 h2
    have hx : p x = true := h1 x (List.mem_cons_self x a)
    obtain ⟨iht, ihd⟩ := ih b (fun c hc => h1 c (List.mem_cons_of_mem x hc)) h2
    constructor
    · rw [List.cons_append, List.takeWhile_cons, if_pos (by simp [hx]), iht]
    · rw [List.cons_append, List.dropWhile_cons, if_pos (by simp [hx]), ihd]

theorem parseNat_natToDigits (n : Nat) (rest : List Char)
    (hrg : ∀ c, rest.head? = some c → isDigitChar c = false) :
    parseNat (natToDigits n ++ rest) = some (n, rest) := by
  obtain ⟨htw, hdw⟩ :=
    takeWhile_append_all (natToDigits n) rest (natToDigits_digits n) hrg
  unfold parseNat
  rw [htw, hdw, if_neg (natToDigits_ne_nil n), digitsVal_natToDigits]

theorem parseNumber_minus (l : List Char) :
    parseNumber ('-' :: l)
      = (parseNat l).map (fun p => (-(p.1 : Int), p.2)) := rfl

theorem parseNumber_not_minus (c : Char) (l : List Char) (h : c ≠ '-') :
    parseNumber (c :: l)
      = (parseNat (c :: l)).map (fun p => ((p.1 : Int), p.2)) := by
  rw [parseNumber.eq_def]
  split
  · rename_i r heq
    injection heq with hh _
    exact absurd hh h
  · rfl

theorem isDigitChar_ne_minus (c : Char) (h : isDigitChar c = true) :
    c ≠ '-' := by
  intro hc
  rw [hc] at h
  exact absurd h (by decide)

theorem parseNumber_intToChars (n : Int) (rest : List Char)
    (hrg : ∀ c, rest.head? = some c → isDigitChar c = false) :
    parseNumber (intToChars n ++ rest) = some (n, rest) := by
  unfold intToChars
  split_ifs with hneg
  · rw [List.cons_append, parseNumber_minus,
      parseNat_natToDigits n.natAbs rest hrg]
    rw [show ((some (n.natAbs, rest)).map
        (fun p => (-(p.1 : Int), p.2)))
        = some ((-(n.natAbs : Int), rest) : Int × List Char) from rfl]
    rw [show -(n.natAbs : Int) = n from by omega]
  · obtain ⟨d, ds, hd⟩ := List.exists_cons_of_ne_nil (natToDigits_ne_nil n.toNat)
    have hddig : isDigitChar d = true := by
      refine natToDigits_digits n.toNat d ?_
      rw [hd]
      exact List.mem_cons_self d ds
    rw [hd, List.cons_append,
      parseNumber_not_minus d (ds ++ rest) (isDigitChar_ne_minus d hddig),
      ← List.cons_append, ← hd, parseNat_natToDigits n.toNat rest hrg]
    rw [show ((some (n.toNat, rest)).map
        (fun p => ((p.1 : Int), p.2)))
        = some (((n.toNat : Int), rest) : Int × List Char) from rfl]
    rw [show ((n.toNat : Int)) = n from by omega]

/-! ## Theorems: the line scanner accepts canonical encoder output -/

theorem pyIsLineBreak_cases (c : Char) (h : pyIsLineBreak c = true) :
    c.toNat < 32 ∨ isExoticBreak c = true := by
  simp only [pyIsLineBreak, Bool.or_eq_true, decide_eq_true_eq] at h
  rcases h with ((((((((h | h) | h) | h) | h) | h) | h) | h) | h) | h <;>
    subst h <;> first | (left; decide) | (right; decide)

theorem lineScan_out_step (c : Char) (l : List Char) (h : outSafe c = true) :
    lineScan false false (c :: l) = lineScan false false l := by
  unfold outSafe at h
  rw [Bool.and_eq_true, Bool.and_eq_true, Bool.and_eq_true] at h
  obtain ⟨⟨⟨h1, h2⟩, h3⟩, h4⟩ := h
  have h1' : c ≠ '\\' := by simpa using h1
  have h2' : c ≠ '"' := by simpa using h2
  have h3' : c ≠ '/' := by simpa using h3
  have h4' : pyIsLineBreak c = false ∨ c = '\n' := by
    by_cases hbr : pyIsLineBreak c = true
    · rw [hbr] at h4
      right
      simpa using h4
    · left
      simpa using hbr
  have hcond : (c = '/' || (pyIsLineBreak c && !(c = '\n'))) = false := by
    rcases h4' with hh | hh
    · simp [h3', hh]
    · simp [h3', hh]
  rw [lineScan, if_neg (by simp), if_neg h1', if_neg h2', if_neg (by simp),
    if_neg (by simp [hcond])]

theorem lineScan_out_chunk (a : List Char) (h : ∀ c ∈ a, outSafe c = true) :
    ∀ l, lineScan false false (a ++ l) = lineScan false false l := by
  induction a with
  | nil => intro l; rfl
  | cons x a ih =>
    intro l
    rw [List.cons_append,
      lineScan_out_step x _ (h x (List.mem_cons_self x a)),
      ih (fun c hc => h c (List.mem_cons_of_mem x hc)) l]

theorem lineScan_spaces (n : Nat) :
    ∀ l, lineScan false false (spaces n ++ l) = lineScan false false l := by
  refine lineScan_out_chunk (spaces n) ?_
  intro c hc
  rw [List.eq_of_mem_replicate hc]
  decide

theorem digitChar_mem (k : Nat) :
    digitChar k ∈ ['0', '1', '2', '3', '4', '5', '6', '7', '8', '9'] := by
  unfold digitChar
  split <;> simp

theorem hexDigitChar_mem (k : Nat) :
    hexDigitChar k ∈ '0' :: '1' :: '2' :: '3' :: '4' :: '5' :: '6' :: '7'
      :: ['8', '9', 'a', 'b', 'c', 'd', 'e', 'f'] := by
  unfold hexDigitChar
  split <;> simp

theorem natToDigitsAux_mem (fuel : Nat) :
    ∀ (n : Nat), ∀ c ∈ natToDigitsAux fuel n,
      c ∈ ['0', '1', '2', '3', '4', '5', '6', '7', '8', '9'] := by
  induction fuel with
  | zero => intro n c hc; exact absurd hc (List.not_mem_nil c)
  | succ fuel ih =>
    intro n c hc
    rw [natToDigitsAux] at hc
    split_ifs at hc
    · rcases List.mem_singleton.mp hc with rfl
      exact digitChar_mem n
    · rcases List.mem_append.mp hc with hm | hm
      · exact ih (n / 10) c hm
      · rcases List.mem_singleton.mp hm with rfl
        exact digitChar_mem (n % 10)

theorem digit_list_outSafe (c : Char)
    (h : c ∈ ['0', '1', '2', '3', '4', '5', '6', '7', '8', '9']) :
    outSafe c = true := by
  simp only [List.mem_cons, List.not_mem_nil, or_false] at h
  rcases h with rfl | rfl | rfl | rfl | rfl | rfl | rfl | rfl | rfl | rfl <;>
    decide

theorem digit_list_head_ok (c : Char)
    (h : c ∈ ['0', '1', '2', '3', '4', '5', '6', '7', '8', '9']) :
    jsonWs c = false ∧ pyIsSpace c = false ∧ c ≠ '}' ∧ c ≠ ']' := by
  simp only [List.mem_cons, List.not_mem_nil, or_false] at h
  rcases h with rfl | rfl | rfl | rfl | rfl | rfl | rfl | rfl | rfl | rfl <;>
    exact ⟨by decide, by decide, by decide, by decide⟩

theorem hex_list_safe (c : Char)
    (h : c ∈ '0' :: '1' :: '2' :: '3' :: '4' :: '5' :: '6' :: '7'
      :: ['8', '9', 'a', 'b', 'c', 'd', 'e', 'f']) :
    pyIsLineBreak c = false ∧ c ≠ '"' ∧ c ≠ '\\' := by
  simp only [List.mem_cons, List.not_mem_nil, or_false] at h
  rcases h with rfl | rfl | rfl | rfl | rfl | rfl | rfl | rfl | rfl | rfl
    | rfl | rfl | rfl | rfl | rfl | rfl <;>
    exact ⟨by decide, by decide, by decide⟩

theorem hex_list_comma_safe (c : Char)
    (h : c ∈ '0' :: '1' :: '2' :: '3' :: '4' :: '5' :: '6' :: '7'
      :: ['8', '9', 'a', 'b', 'c', 'd', 'e', 'f']) :
    c ≠ '"' ∧ c ≠ '\\' ∧ c ≠ ',' := by
  simp only [List.mem_cons, List.not_mem_nil, or_false] at h
  rcases h with rfl | rfl | rfl | rfl | rfl | rfl | rfl | rfl | rfl | rfl
    | rfl | rfl | rfl | rfl | rfl | rfl <;>
    exact ⟨by decide, by decide, by decide⟩

theorem intToChars_outSafe (n : Int) :
    ∀ c ∈ intToChars n, outSafe c = true := by
  intro c hc
  unfold intToChars at hc
  split_ifs at hc
  · rcases List.mem_cons.mp hc with rfl | hm
    · decide
    · exact digit_list_outSafe c (natToDigitsAux_mem _ _ c hm)
  · exact digit_list_outSafe c (natToDigitsAux_mem _ _ c hc)

theorem lineScan_quote_open (l : List Char) :
    lineScan false false ('"' :: l) = lineScan true false l := rfl

theorem lineScan_quote_close (l : List Char) :
    lineScan true false ('"' :: l) = lineScan false false l := rfl

theorem lineScan_in_step (c : Char) (l : List Char)
    (h1 : pyIsLineBreak c = false) (h2 : c ≠ '"') (h3 : c ≠ '\\') :
    lineScan true false (c :: l) = lineScan true false l := by
  rw [lineScan, if_neg (by simp), if_neg h3, if_neg h2,
    if_pos (by simp), if_neg (by simp [h1])]

theorem lineScan_enc_char (c : Char) (hclean : isExoticBreak c = false)
    (l : List Char) :
    lineScan true false (enc_char c ++ l) = lineScan true false l := by
  rw [enc_char]
  split_ifs with h1 h2 h3 h4 h5 h6 h7 h8
  · rfl
  · rfl
  · rfl
  · rfl
  · rfl
  · rfl
  · rfl
  · -- the `\u00xx` escape: backslash, `u`, two zeros, two hex digits
    rw [show (['\\', 'u', '0', '0', hexDigitChar (c.toNat / 16),
        hexDigitChar (c.toNat % 16)] : List Char) ++ l
        = '\\' :: 'u' :: '0' :: '0' :: hexDigitChar (c.toNat / 16)
          :: hexDigitChar (c.toNat % 16) :: l from rfl]
    rw [show lineScan true false ('\\' :: 'u' :: '0' :: '0'
        :: hexDigitChar (c.toNat / 16) :: hexDigitChar (c.toNat % 16) :: l)
        = lineScan true false (hexDigitChar (c.toNat / 16)
          :: hexDigitChar (c.toNat % 16) :: l) from rfl]
    obtain ⟨hma, hmb, hmc⟩ := hex_list_safe _ (hexDigitChar_mem (c.toNat / 16))
    obtain ⟨hna, hnb, hnc⟩ := hex_list_safe _ (hexDigitChar_mem (c.toNat % 16))
    rw [lineScan_in_step _ _ hma hmb hmc, lineScan_in_step _ _ hna hnb hnc]
  · -- plain character, at or above 0x20 and not an exotic separator
    rw [show ([c] : List Char) ++ l = c :: l from rfl]
    refine lineScan_in_step c l ?_ h1 h2
    by_cases hbr : pyIsLineBreak c = true
    · rcases pyIsLineBreak_cases c hbr with hlt | hex
      · omega
      · rw [hex] at hclean; exact absurd hclean (by simp)
    · simpa using hbr

theorem lineScan_enc_body (l : List Char)
    (hclean : ∀ c ∈ l, isExoticBreak c = false) :
    ∀ rest, lineScan true false (enc_string_body l ++ rest)
      = lineScan true false rest := by
  induction l with
  | nil => intro rest; rfl
  | cons c l ih =>
    intro rest
    rw [enc_string_body, List.append_assoc,
      lineScan_enc_char c (hclean c (List.mem_cons_self c l)),
      ih (fun x hx => hclean x (List.mem_cons_of_mem c hx)) rest]

theorem lineScan_enc_string (s : String) (hclean : clean_string s = true)
    (rest : List Char) :
    lineScan false false (enc_string s ++ rest)
      = lineScan false false rest := by
  rw [enc_string]
  rw [show ('"' :: enc_string_body s.data ++ ['"']) ++ rest
      = '"' :: (enc_string_body s.data ++ ('"' :: rest)) from by
    simp [List.append_assoc]]
  rw [lineScan_quote_open,
    lineScan_enc_body s.data (by
      intro c hc
      unfold clean_string at hclean
      rw [List.all_eq_true] at hclean
      simpa using hclean c hc) ('"' :: rest),
    lineScan_quote_close]

mutual

theorem lineScan_encode_val (ind : Nat) (v : PyValue) (hc : clean_val v = true) :
    ∀ rest, lineScan false false (encode_val ind v ++ rest)
      = lineScan false false rest := by
  cases v with
  | obj ms =>
    cases ms with
    | nil =>
      intro rest
      rw [show encode_val ind (.obj []) ++ rest = '{' :: '}' :: rest from rfl,
        lineScan_out_step _ _ (by decide), lineScan_out_step _ _ (by decide)]
    | cons m ms =>
      intro rest
      obtain ⟨hm, hms⟩ : (clean_string m.1 && clean_val m.2) = true
          ∧ clean_members ms = true := by
        obtain ⟨k, v2⟩ := m
        have hc' : (clean_string k && clean_val v2 && clean_members ms)
            = true := hc
        rw [Bool.and_eq_true, Bool.and_eq_true] at hc'
        exact ⟨by rw [Bool.and_eq_true]; exact hc'.1, hc'.2⟩
      rw [show encode_val ind (.obj (m :: ms)) ++ rest
          = '{' :: (encode_member (ind + 2) m ++ (encode_members (ind + 2) ms
            ++ '\n' :: (spaces ind ++ ('}' :: rest)))) from by
        rw [show encode_val ind (.obj (m :: ms))
            = '{' :: (encode_member (ind + 2) m
              ++ encode_members (ind + 2) ms) ++ '\n' :: spaces ind ++ ['}']
          from rfl]
        simp [List.append_assoc]]
      rw [lineScan_out_step _ _ (by decide),
        lineScan_encode_member (ind + 2) m hm,
        lineScan_encode_members (ind + 2) ms hms,
        lineScan_out_step _ _ (by decide), lineScan_spaces ind,
        lineScan_out_step _ _ (by decide)]
  | arr vs =>
    cases vs with
    | nil =>
      intro rest
      rw [show encode_val ind (.arr []) ++ rest = '[' :: ']' :: rest from rfl,
        lineScan_out_step _ _ (by decide), lineScan_out_step _ _ (by decide)]
    | cons v vs =>
      intro rest
      obtain ⟨hv, hvs⟩ : clean_val v = true ∧ clean_elems vs = true := by
        have hc' : (clean_val v && clean_elems vs) = true := hc
        rw [Bool.and_eq_true] at hc'
        exact hc'
      rw [show encode_val ind (.arr (v :: vs)) ++ rest
          = '[' :: ('\n' :: (spaces (ind + 2) ++ (encode_val (ind + 2) v
            ++ (encode_elems (ind + 2) vs
              ++ '\n' :: (spaces ind ++ (']' :: rest)))))) from by
        rw [show encode_val ind (.arr (v :: vs))
            = '[' :: (('\n' :: spaces (ind + 2) ++ encode_val (ind + 2) v)
              ++ encode_elems (ind + 2) vs) ++ '\n' :: spaces ind ++ [']']
          from rfl]
        simp [List.append_assoc]]
      rw [lineScan_out_step _ _ (by decide),
        lineScan_out_step _ _ (by decide), lineScan_spaces (ind + 2),
        lineScan_encode_val (ind + 2) v hv,
        lineScan_encode_elems (ind + 2) vs hvs,
        lineScan_out_step _ _ (by decide), lineScan_spaces ind,
        lineScan_out_step _ _ (by decide)]
  | str s =>
    intro rest
    exact lineScan_enc_string s hc rest
  | num n =>
    intro rest
    exact lineScan_out_chunk (intToChars n) (intToChars_outSafe n) rest
  | bool b =>
    intro rest
    cases b
    · rw [show encode_val ind (.bool false) ++ rest
          = 'f' :: 'a' :: 'l' :: 's' :: 'e' :: rest from rfl]
      rw [lineScan_out_step _ _ (by decide), lineScan_out_step _ _ (by decide),
        lineScan_out_step _ _ (by decide), lineScan_out_step _ _ (by decide),
        lineScan_out_step _ _ (by decide)]
    · rw [show encode_val ind (.bool true) ++ rest
          = 't' :: 'r' :: 'u' :: 'e' :: rest from rfl]
      rw [lineScan_out_step _ _ (by decide), lineScan_out_step _ _ (by decide),
        lineScan_out_step _ _ (by decide), lineScan_out_step _ _ (by decide)]
  | null =>
    intro rest
    rw [show encode_val ind .null ++ rest
        = 'n' :: 'u' :: 'l' :: 'l' :: rest from rfl]
    rw [lineScan_out_step _ _ (by decide), lineScan_out_step _ _ (by decide),
      lineScan_out_step _ _ (by decide), lineScan_out_step _ _ (by decide)]
  | unsupported s =>
    intro rest
    rfl

theorem lineScan_encode_member (ind : Nat) (m : String × PyValue)
    (hc : (clean_string m.1 && clean_val m.2) = true) :
    ∀ rest, lineScan false false (encode_member ind m ++ rest)
      = lineScan false false rest := by
  obtain ⟨k, v⟩ := m
  rw [Bool.and_eq_true] at hc
  obtain ⟨hk, hv⟩ := hc
  intro rest
  rw [show encode_member ind (k, v) ++ rest
      = '\n' :: (spaces ind ++ (enc_string k
        ++ (':' :: (' ' :: (encode_val ind v ++ rest))))) from by
    rw [encode_member]
    simp [List.append_assoc]]
  rw [lineScan_out_step _ _ (by decide), lineScan_spaces ind,
    lineScan_enc_string k hk,
    lineScan_out_step _ _ (by decide), lineScan_out_step _ _ (by decide),
    lineScan_encode_val ind v hv]

theorem lineScan_encode_members (ind : Nat) (ms : List (String × PyValue))
    (hc : clean_members ms = true) :
    ∀ rest, lineScan false false (encode_members ind ms ++ rest)
      = lineScan false false rest := by
  cases ms with
  | nil => intro rest; rfl
  | cons m ms =>
    intro rest
    obtain ⟨hm, hms⟩ : (clean_string m.1 && clean_val m.2) = true
        ∧ clean_members ms = true := by
      obtain ⟨k, v2⟩ := m
      have hc' : (clean_string k && clean_val v2 && clean_members ms)
          = true := hc
      rw [Bool.and_eq_true, Bool.and_eq_true] at hc'
      exact ⟨by rw [Bool.and_eq_true]; exact hc'.1, hc'.2⟩
    rw [show encode_members ind (m :: ms) ++ rest
        = ',' :: (encode_member ind m ++ (encode_members ind ms ++ rest))
      from by
      rw [encode_members]
      simp [List.append_assoc]]
    rw [lineScan_out_step _ _ (by decide),
      lineScan_encode_member ind m hm,
      lineScan_encode_members ind ms hms]

theorem lineScan_encode_elems (ind : Nat) (vs : List PyValue)
    (hc : clean_elems vs = true) :
    ∀ rest, lineScan false false (encode_elems ind vs ++ rest)
      = lineScan false false rest := by
  cases vs with
  | nil => intro rest; rfl
  | cons v vs =>
    intro rest
    obtain ⟨hv, hvs⟩ : clean_val v = true ∧ clean_elems vs = true := by
      have hc' : (clean_val v && clean_elems vs) = true := hc
      rw [Bool.and_eq_true] at hc'
      exact hc'
    rw [show encode_elems ind (v :: vs) ++ rest
        = ',' :: ('\n' :: (spaces ind ++ (encode_val ind v
          ++ (encode_elems ind vs ++ rest)))) from by
      rw [show encode_elems ind (v :: vs)
          = ',' :: ('\n' :: spaces ind ++ encode_val ind v)
            ++ encode_elems ind vs from rfl]
      simp [List.append_assoc]]
    rw [lineScan_out_step _ _ (by decide), lineScan_out_step _ _ (by decide),
      lineScan_spaces ind, lineScan_encode_val ind v hv,
      lineScan_encode_elems ind vs hvs]

end

/-! ## Theorems: the comma scanner accepts canonical encoder output -/

theorem encode_val_head (ind : Nat) (v : PyValue)
    (hs : json_serializable v = true) :
    ∃ c cs, encode_val ind v = c :: cs ∧ jsonWs c = false
      ∧ pyIsSpace c = false ∧ c ≠ '}' ∧ c ≠ ']' := by
  cases v with
  | obj ms =>
    cases ms with
    | nil => exact ⟨'{', _, rfl, by decide, by decide, by decide, by decide⟩
    | cons m ms =>
      exact ⟨'{', _, rfl, by decide, by decide, by decide, by decide⟩
  | arr vs =>
    cases vs with
    | nil => exact ⟨'[', _, rfl, by decide, by decide, by decide, by decide⟩
    | cons v vs =>
      exact ⟨'[', _, rfl, by decide, by decide, by decide, by decide⟩
  | str s => exact ⟨'"', _, rfl, by decide, by decide, by decide, by decide⟩
  | num n =>
    rw [show encode_val ind (.num n) = intToChars n from rfl]
    unfold intToChars
    split_ifs with hn
    · exact ⟨'-', _, rfl, by decide, by decide, by decide, by decide⟩
    · obtain ⟨d, ds, hd⟩ :=
        List.exists_cons_of_ne_nil (natToDigits_ne_nil n.toNat)
      have hmem : d ∈ ['0', '1', '2', '3', '4', '5', '6', '7', '8', '9'] := by
        refine natToDigitsAux_mem (n.toNat + 1) n.toNat d ?_
        rw [show natToDigitsAux (n.toNat + 1) n.toNat = natToDigits n.toNat
          from rfl, hd]
        exact List.mem_cons_self d ds
      obtain ⟨f1, f2, f3, f4⟩ := digit_list_head_ok d hmem
      exact ⟨d, ds, hd, f1, f2, f3, f4⟩
  | bool b =>
    cases b
    · exact ⟨'f', _, rfl, by decide, by decide, by decide, by decide⟩
    · exact ⟨'t', _, rfl, by decide, by decide, by decide, by decide⟩
  | null => exact ⟨'n', _, rfl, by decide, by decide, by decide, by decide⟩
  | unsupported s => exact absurd hs (by simp [json_serializable])

theorem commaScan_esc (inStr : Bool) (x : Char) (l : List Char) :
    commaScan inStr true (x :: l) = commaScan inStr false l := by
  rw [commaScan, if_pos rfl]

theorem commaScan_backslash (inStr : Bool) (l : List Char) :
    commaScan inStr false ('\\' :: l) = commaScan inStr true l := by
  rw [commaScan, if_neg (by simp), if_pos rfl]

theorem commaScan_quote (inStr : Bool) (l : List Char) :
    commaScan inStr false ('"' :: l) = commaScan (!inStr) false l := by
  rw [commaScan, if_neg (by simp), if_neg (by decide), if_pos rfl]

theorem commaScan_in_plain (c : Char) (l : List Char)
    (h1 : c ≠ '"') (h2 : c ≠ '\\') :
    commaScan true false (c :: l) = commaScan true false l := by
  rw [commaScan, if_neg (by simp), if_neg h2, if_neg h1,
    if_neg (by simp)]

theorem commaScan_out_plain (c : Char) (l : List Char)
    (h : c ≠ '\\' ∧ c ≠ '"' ∧ c ≠ ',') :
    commaScan false false (c :: l) = commaScan false false l := by
  rw [commaScan, if_neg (by simp), if_neg h.1, if_neg h.2.1,
    if_neg (by simp [h.2.2])]

theorem commaScan_out_chunk (a : List Char)
    (h : ∀ c ∈ a, c ≠ '\\' ∧ c ≠ '"' ∧ c ≠ ',') :
    ∀ l, commaScan false false (a ++ l) = commaScan false false l := by
  induction a with
  | nil => intro l; rfl
  | cons x a ih =>
    intro l
    rw [List.cons_append,
      commaScan_out_plain x _ (h x (List.mem_cons_self x a)),
      ih (fun c hc => h c (List.mem_cons_of_mem x hc)) l]

theorem commaScan_spaces (n : Nat) :
    ∀ l, commaScan false false (spaces n ++ l) = commaScan false false l := by
  refine commaScan_out_chunk (spaces n) ?_
  intro c hc
  rw [List.eq_of_mem_replicate hc]
  exact ⟨by decide, by decide, by decide⟩

theorem commaScan_enc_char (c : Char) (rest : List Char) :
    commaScan true false (enc_char c ++ rest)
      = commaScan true false rest := by
  rw [enc_char]
  split_ifs with h1 h2 h3 h4 h5 h6 h7 h8
  · rfl
  · rfl
  · rfl
  · rfl
  · rfl
  · rfl
  · rfl
  · rw [show (['\\', 'u', '0', '0', hexDigitChar (c.toNat / 16),
        hexDigitChar (c.toNat % 16)] : List Char) ++ rest
        = '\\' :: 'u' :: '0' :: '0' :: hexDigitChar (c.toNat / 16)
          :: hexDigitChar (c.toNat % 16) :: rest from rfl]
    rw [show commaScan true false ('\\' :: 'u' :: '0' :: '0'
        :: hexDigitChar (c.toNat / 16) :: hexDigitChar (c.toNat % 16) :: rest)
        = commaScan true false (hexDigitChar (c.toNat / 16)
          :: hexDigitChar (c.toNat % 16) :: rest) from rfl]
    obtain ⟨hma, hmb, _⟩ :=
      hex_list_comma_safe _ (hexDigitChar_mem (c.toNat / 16))
    obtain ⟨hna, hnb, _⟩ :=
      hex_list_comma_safe _ (hexDigitChar_mem (c.toNat % 16))
    rw [commaScan_in_plain _ _ hma hmb, commaScan_in_plain _ _ hna hnb]
  · rw [show ([c] : List Char) ++ rest = c :: rest from rfl,
      commaScan_in_plain c rest h1 h2]

theorem commaScan_enc_body (l : List Char) :
    ∀ rest, commaScan true false (enc_string_body l ++ rest)
      = commaScan true false rest := by
  induction l with
  | nil => intro rest; rfl
  | cons c l ih =>
    intro rest
    rw [enc_string_body, List.append_assoc, commaScan_enc_char c, ih rest]

theorem commaScan_enc_string (s : String) (rest : List Char) :
    commaScan false false (enc_string s ++ rest)
      = commaScan false false rest := by
  rw [enc_string]
  rw [show ('"' :: enc_string_body s.data ++ ['"']) ++ rest
      = '"' :: (enc_string_body s.data ++ ('"' :: rest)) from by
    simp [List.append_assoc]]
  rw [commaScan_quote, Bool.not_false, commaScan_enc_body s.data,
    commaScan_quote, Bool.not_true]

theorem dropWhile_pyIsSpace_spaces (n : Nat) :
    ∀ X, (spaces n ++ X).dropWhile pyIsSpace = X.dropWhile pyIsSpace := by
  induction n with
  | zero => intro X; rfl
  | succ n ih =>
    intro X
    rw [spaces, List.replicate_succ, List.cons_append, List.dropWhile_cons,
      if_pos (by decide)]
    exact ih X

theorem dropWhile_head_nl_spaces (ind : Nat) (x : Char) (xs : List Char)
    (hx : pyIsSpace x = false) :
    ((('\n' :: (spaces ind ++ (x :: xs))).dropWhile pyIsSpace).head?)
      = some x := by
  rw [List.dropWhile_cons, if_pos (by decide), dropWhile_pyIsSpace_spaces,
    List.dropWhile_cons, if_neg (by simp [hx])]
  rfl

theorem digit_list_comma_safe (c : Char)
    (h : c ∈ ['0', '1', '2', '3', '4', '5', '6', '7', '8', '9']) :
    c ≠ '\\' ∧ c ≠ '"' ∧ c ≠ ',' := by
  simp only [List.mem_cons, List.not_mem_nil, or_false] at h
  rcases h with rfl|rfl|rfl|rfl|rfl|rfl|rfl|rfl|rfl|rfl <;>
    exact ⟨by decide, by decide, by decide⟩

theorem intToChars_commaSafe (n : Int) :
    ∀ c ∈ intToChars n, c ≠ '\\' ∧ c ≠ '"' ∧ c ≠ ',' := by
  intro c hc
  unfold intToChars at hc
  split_ifs at hc with hn
  · rcases List.mem_cons.mp hc with rfl | hc
    · exact ⟨by decide, by decide, by decide⟩
    · exact digit_list_comma_safe c
        (natToDigitsAux_mem (n.natAbs + 1) n.natAbs c hc)
  · exact digit_list_comma_safe c
      (natToDigitsAux_mem (n.toNat + 1) n.toNat c hc)

theorem commaScan_comma_step (T : List Char) (d : Char)
    (h : (T.dropWhile pyIsSpace).head? = some d)
    (hd : (d = '}' || d = ']') = false) :
    commaScan false false (',' :: T) = commaScan false false T := by
  rw [commaScan, if_neg (by simp), if_neg (by decide), if_neg (by decide),
    if_pos (by decide),
    if_pos (by
      rw [Bool.and_eq_true]
      constructor
      · unfold hasNext
        rw [h]
        rfl
      · unfold closingNext
        rw [h]
        show (!(decide (d = '}') || decide (d = ']'))) = true
        rw [hd]
        rfl)]

mutual

theorem commaScan_encode_val (ind : Nat) (v : PyValue)
    (hs : json_serializable v = true) :
    ∀ rest, commaScan false false (encode_val ind v ++ rest)
      = commaScan false false rest := by
  cases v with
  | obj ms =>
    cases ms with
    | nil =>
      intro rest
      rw [show encode_val ind (.obj []) ++ rest = '{' :: '}' :: rest from rfl,
        commaScan_out_plain _ _ (by decide), commaScan_out_plain _ _ (by decide)]
    | cons m ms =>
      intro rest
      obtain ⟨hm, hms⟩ : json_serializable m.2 = true
          ∧ json_serializable_members ms = true := by
        obtain ⟨k, v2⟩ := m
        have hs' : (json_serializable v2 && json_serializable_members ms)
            = true := hs
        rw [Bool.and_eq_true] at hs'
        exact hs'
      rw [show encode_val ind (.obj (m :: ms)) ++ rest
          = '{' :: (encode_member (ind + 2) m ++ (encode_members (ind + 2) ms
            ++ '\n' :: (spaces ind ++ ('}' :: rest)))) from by
        rw [show encode_val ind (.obj (m :: ms))
            = '{' :: (encode_member (ind + 2) m
              ++ encode_members (ind + 2) ms) ++ '\n' :: spaces ind ++ ['}']
          from rfl]
        simp [List.append_assoc]]
      rw [commaScan_out_plain _ _ (by decide),
        commaScan_encode_member (ind + 2) m hm,
        commaScan_encode_members (ind + 2) ms hms,
        commaScan_out_plain _ _ (by decide), commaScan_spaces ind,
        commaScan_out_plain _ _ (by decide)]
  | arr vs =>
    cases vs with
    | nil =>
      intro rest
      rw [show encode_val ind (.arr []) ++ rest = '[' :: ']' :: rest from rfl,
        commaScan_out_plain _ _ (by decide), commaScan_out_plain _ _ (by decide)]
    | cons v vs =>
      intro rest
      obtain ⟨hv, hvs⟩ : json_serializable v = true
          ∧ json_serializable_elems vs = true := by
        have hs' : (json_serializable v && json_serializable_elems vs)
            = true := hs
        rw [Bool.and_eq_true] at hs'
        exact hs'
      rw [show encode_val ind (.arr (v :: vs)) ++ rest
          = '[' :: ('\n' :: (spaces (ind + 2) ++ (encode_val (ind + 2) v
            ++ (encode_elems (ind + 2) vs
              ++ '\n' :: (spaces ind ++ (']' :: rest)))))) from by
        rw [show encode_val ind (.arr (v :: vs))
            = '[' :: (('\n' :: spaces (ind + 2) ++ encode_val (ind + 2) v)
              ++ encode_elems (ind + 2) vs) ++ '\n' :: spaces ind ++ [']']
          from rfl]
        simp [List.append_assoc]]
      rw [commaScan_out_plain _ _ (by decide),
        commaScan_out_plain _ _ (by decide), commaScan_spaces (ind + 2),
        commaScan_encode_val (ind + 2) v hv,
        commaScan_encode_elems (ind + 2) vs hvs,
        commaScan_out_plain _ _ (by decide), commaScan_spaces ind,
        commaScan_out_plain _ _ (by decide)]
  | str s =>
    intro rest
    exact commaScan_enc_string s rest
  | num n =>
    intro rest
    exact commaScan_out_chunk (intToChars n) (intToChars_commaSafe n) rest
  | bool b =>
    intro rest
    cases b
    · rw [show encode_val ind (.bool false) ++ rest
          = 'f' :: 'a' :: 'l' :: 's' :: 'e' :: rest from rfl]
      rw [commaScan_out_plain _ _ (by decide), commaScan_out_plain _ _ (by decide),
        commaScan_out_plain _ _ (by decide), commaScan_out_plain _ _ (by decide),
        commaScan_out_plain _ _ (by decide)]
    · rw [show encode_val ind (.bool true) ++ rest
          = 't' :: 'r' :: 'u' :: 'e' :: rest from rfl]
      rw [commaScan_out_plain _ _ (by decide), commaScan_out_plain _ _ (by decide),
        commaScan_out_plain _ _ (by decide), commaScan_out_plain _ _ (by decide)]
  | null =>
    intro rest
    rw [show encode_val ind .null ++ rest
        = 'n' :: 'u' :: 'l' :: 'l' :: rest from rfl]
    rw [commaScan_out_plain _ _ (by decide), commaScan_out_plain _ _ (by decide),
      commaScan_out_plain _ _ (by decide), commaScan_out_plain _ _ (by decide)]
  | unsupported s =>
    intro rest
    rfl

theorem commaScan_encode_member (ind : Nat) (m : String × PyValue)
    (hs : json_serializable m.2 = true) :
    ∀ rest, commaScan false false (encode_member ind m ++ rest)
      = commaScan false false rest := by
  obtain ⟨k, v⟩ := m
  intro rest
  rw [show encode_member ind (k, v) ++ rest
      = '\n' :: (spaces ind ++ (enc_string k
        ++ (':' :: (' ' :: (encode_val ind v ++ rest))))) from by
    rw [encode_member]
    simp [List.append_assoc]]
  rw [commaScan_out_plain _ _ (by decide), commaScan_spaces ind,
    commaScan_enc_string k,
    commaScan_out_plain _ _ (by decide), commaScan_out_plain _ _ (by decide),
    commaScan_encode_val ind v hs]

theorem commaScan_encode_members (ind : Nat) (ms : List (String × PyValue))
    (hs : json_serializable_members ms = true) :
    ∀ rest, commaScan false false (encode_members ind ms ++ rest)
      = commaScan false false rest := by
  cases ms with
  | nil => intro rest; rfl
  | cons m ms =>
    intro rest
    obtain ⟨k, v⟩ := m
    obtain ⟨hv, hms⟩ : json_serializable v = true
        ∧ json_serializable_members ms = true := by
      have hs' : (json_serializable v && json_serializable_members ms)
          = true := hs
      rw [Bool.and_eq_true] at hs'
      exact hs'
    have hT : ((encode_member ind (k, v)
        ++ (encode_members ind ms ++ rest)).dropWhile pyIsSpace).head?
        = some '"' := by
      rw [show encode_member ind (k, v) ++ (encode_members ind ms ++ rest)
          = '\n' :: (spaces ind ++ ('"' :: (enc_string_body k.data
            ++ ('"' :: (':' :: (' ' :: (encode_val ind v
              ++ (encode_members ind ms ++ rest)))))))) from by
        rw [encode_member, enc_string]
        simp [List.append_assoc]]
      exact dropWhile_head_nl_spaces ind '"' _ (by decide)
    rw [show encode_members ind ((k, v) :: ms) ++ rest
        = ',' :: (encode_member ind (k, v)
          ++ (encode_members ind ms ++ rest)) from by
      rw [encode_members]
      simp [List.append_assoc]]
    rw [commaScan_comma_step _ '"' hT (by decide),
      commaScan_encode_member ind (k, v) hv,
      commaScan_encode_members ind ms hms]

theorem commaScan_encode_elems (ind : Nat) (vs : List PyValue)
    (hs : json_serializable_elems vs = true) :
    ∀ rest, commaScan false false (encode_elems ind vs ++ rest)
      = commaScan false false rest := by
  cases vs with
  | nil => intro rest; rfl
  | cons v vs =>
    intro rest
    obtain ⟨hv, hvs⟩ : json_serializable v = true
        ∧ json_serializable_elems vs = true := by
      have hs' : (json_serializable v && json_serializable_elems vs)
          = true := hs
      rw [Bool.and_eq_true] at hs'
      exact hs'
    obtain ⟨c, cs, hcons, hws, hsp, h1, h2⟩ := encode_val_head ind v hv
    have hT : (('\n' :: (spaces ind ++ (encode_val ind v
        ++ (encode_elems ind vs ++ rest)))).dropWhile pyIsSpace).head?
        = some c := by
      rw [hcons, List.cons_append]
      exact dropWhile_head_nl_spaces ind c _ hsp
    rw [show encode_elems ind (v :: vs) ++ rest
        = ',' :: ('\n' :: (spaces ind ++ (encode_val ind v
          ++ (encode_elems ind vs ++ rest)))) from by
      rw [show encode_elems ind (v :: vs)
          = ',' :: ('\n' :: spaces ind ++ encode_val ind v)
            ++ encode_elems ind vs from rfl]
      simp [List.append_assoc]]
    rw [commaScan_comma_step _ c hT (by simp [h1, h2]),
      commaScan_out_plain _ _ (by decide), commaScan_spaces ind,
      commaScan_encode_val ind v hv,
      commaScan_encode_elems ind vs hvs]

end

theorem skipWs_skipWs (cs : List Char) : skipWs (skipWs cs) = skipWs cs := by
  induction cs with
  | nil => rfl
  | cons c cs ih =>
    by_cases h : jsonWs c = true
    · rw [show skipWs (c :: cs) = skipWs cs from by
        simp [skipWs, List.dropWhile_cons, h]]
      exact ih
    · rw [skipWs_cons_of_not c cs (by simpa using h),
        skipWs_cons_of_not c cs (by simpa using h)]

theorem parseValue_eq_of_skipWs (f : Nat) (cs1 cs2 : List Char)
    (h : skipWs cs1 = skipWs cs2) : parseValue f cs1 = parseValue f cs2 := by
  cases f with
  | zero => rfl
  | succ f =>
    simp only [parseValue]
    rw [h]

theorem parseMembers_eq_of_skipWs (f : Nat) (cs1 cs2 : List Char)
    (h : skipWs cs1 = skipWs cs2) : parseMembers f cs1 = parseMembers f cs2 := by
  cases f with
  | zero => rfl
  | succ f =>
    simp only [parseMembers]
    rw [h]

theorem parseElems_eq_of_skipWs (f : Nat) (cs1 cs2 : List Char)
    (h : skipWs cs1 = skipWs cs2) : parseElems f cs1 = parseElems f cs2 := by
  cases f with
  | zero => rfl
  | succ f =>
    simp only [parseElems]
    rw [parseValue_eq_of_skipWs f cs1 cs2 h]

theorem parseValue_obj_empty (f : Nat) (rest : List Char) :
    parseValue (f + 1) ('{' :: '}' :: rest) = some (.obj [], rest) := rfl

theorem parseValue_arr_empty (f : Nat) (rest : List Char) :
    parseValue (f + 1) ('[' :: ']' :: rest) = some (.arr [], rest) := rfl

theorem parseValue_true (f : Nat) (rest : List Char) :
    parseValue (f + 1) ('t' :: 'r' :: 'u' :: 'e' :: rest)
      = some (.bool true, rest) := by
  simp only [parseValue]
  rw [skipWs_cons_of_not 't' _ (by decide)]
  rfl

theorem parseValue_obj_nonempty (f : Nat) (T r2 : List Char)
    (h : skipWs T = '"' :: r2) :
    parseValue (f + 1) ('{' :: T)
      = (parseMembers f T).map fun p => (PyValue.obj p.1, p.2) := by
  simp only [parseValue]
  rw [skipWs_cons_of_not '{' T (by decide)]
  conv_lhs => whnf
  rw [h]
  conv_lhs => whnf
  rw [parseMembers_eq_of_skipWs f ('"' :: r2) T
    (by rw [skipWs_cons_of_not _ _ (by decide), h])]
  rfl


theorem skipWs_space (l : List Char) : skipWs (' ' :: l) = skipWs l := by
  simp [skipWs, List.dropWhile_cons, show jsonWs ' ' = true from rfl]

theorem parseValue_false (f : Nat) (rest : List Char) :
    parseValue (f + 1) ('f' :: 'a' :: 'l' :: 's' :: 'e' :: rest)
      = some (.bool false, rest) := by
  simp only [parseValue]
  rw [skipWs_cons_of_not 'f' _ (by decide)]
  rfl

theorem parseValue_null (f : Nat) (rest : List Char) :
    parseValue (f + 1) ('n' :: 'u' :: 'l' :: 'l' :: rest)
      = some (.null, rest) := by
  simp only [parseValue]
  rw [skipWs_cons_of_not 'n' _ (by decide)]
  rfl

theorem parseValue_str (f : Nat) (s : String) (rest : List Char) :
    parseValue (f + 1) ('"' :: (enc_string_body s.data ++ ('"' :: rest)))
      = some (.str s, rest) := by
  simp only [parseValue]
  rw [skipWs_cons_of_not '"' _ (by decide)]
  conv_lhs => whnf
  rw [parseStringBody_enc_string s rest]

theorem parseValue_arr_nonempty (f : Nat) (T : List Char) (d : Char)
    (r2 : List Char) (h : skipWs T = d :: r2) (hd : d ≠ ']')
    (hws : jsonWs d = false) :
    parseValue (f + 1) ('[' :: T)
      = (parseElems f T).map fun p => (PyValue.arr p.1, p.2) := by
  simp only [parseValue]
  rw [skipWs_cons_of_not '[' T (by decide)]
  conv_lhs => whnf
  rw [h]
  split
  · rename_i r2' heq
    injection heq with h1 _
    exact absurd h1 hd
  · rw [parseElems_eq_of_skipWs f (d :: r2) T
      (by rw [skipWs_cons_of_not _ _ hws, h])]

theorem jsonWs_of_digit (c : Char) (h : isDigitChar c = true) :
    jsonWs c = false := by
  unfold isDigitChar at h
  rw [Bool.and_eq_true] at h
  unfold jsonWs
  rw [show (decide (c = ' ') : Bool) = false from by
      simp only [decide_eq_false_iff_not]
      intro hc
      rw [hc] at h
      exact absurd h.1 (by decide)]
  rw [show (decide (c = '\t') : Bool) = false from by
      simp only [decide_eq_false_iff_not]
      intro hc
      rw [hc] at h
      exact absurd h.1 (by decide)]
  rw [show (decide (c = '\n') : Bool) = false from by
      simp only [decide_eq_false_iff_not]
      intro hc
      rw [hc] at h
      exact absurd h.1 (by decide)]
  rw [show (decide (c = '\r') : Bool) = false from by
      simp only [decide_eq_false_iff_not]
      intro hc
      rw [hc] at h
      exact absurd h.1 (by decide)]
  rfl

theorem intToChars_head (n : Int) :
    ∃ c0 cs0, intToChars n = c0 :: cs0
      ∧ (c0 = '-' ∨ isDigitChar c0 = true) ∧ jsonWs c0 = false := by
  unfold intToChars
  split_ifs with hn
  · exact ⟨'-', _, rfl, Or.inl rfl, by decide⟩
  · obtain ⟨d, ds, hd⟩ :=
      List.exists_cons_of_ne_nil (natToDigits_ne_nil n.toNat)
    have hdig : isDigitChar d = true :=
      natToDigits_digits n.toNat d (hd ▸ List.mem_cons_self d ds)
    exact ⟨d, ds, hd, Or.inr hdig, jsonWs_of_digit d hdig⟩

theorem parseValue_num (f : Nat) (n : Int) (rest : List Char)
    (hrg : ∀ c, rest.head? = some c → isDigitChar c = false) :
    parseValue (f + 1) (intToChars n ++ rest) = some (.num n, rest) := by
  obtain ⟨c0, cs0, hcons, hc, hws⟩ := intToChars_head n
  simp only [parseValue]
  rw [hcons, List.cons_append, skipWs_cons_of_not c0 _ hws]
  split
  · rename_i heq
    exact absurd heq (by simp)
  · rename_i r heq
    injection heq with h1 _
    subst h1
    rcases hc with hc | hc <;> exact absurd hc (by decide)
  · rename_i r heq
    injection heq with h1 _
    subst h1
    rcases hc with hc | hc <;> exact absurd hc (by decide)
  · rename_i r heq
    injection heq with h1 _
    subst h1
    rcases hc with hc | hc <;> exact absurd hc (by decide)
  · rename_i r heq
    injection heq with h1 _
    subst h1
    rcases hc with hc | hc <;> exact absurd hc (by decide)
  · rename_i r heq
    injection heq with h1 _
    subst h1
    rcases hc with hc | hc <;> exact absurd hc (by decide)
  · rename_i r heq
    injection heq with h1 _
    subst h1
    rcases hc with hc | hc <;> exact absurd hc (by decide)
  · rename_i c r heq
    injection heq with h1 h2
    rw [if_pos (by
      rcases hc with hc2 | hc2
      · rw [← h1, hc2]
        rfl
      · rw [← h1, hc2, Bool.or_true])]
    rw [← h1, ← h2, ← List.cons_append, ← hcons,
      parseNumber_intToChars n rest hrg]
    rfl


theorem parseValue_nl_spaces (f ind : Nat) (X : List Char) :
    parseValue f ('\n' :: (spaces ind ++ X)) = parseValue f X :=
  parseValue_eq_of_skipWs f _ X (by rw [skipWs_nl, skipWs_spaces])

theorem parseValue_space (f : Nat) (X : List Char) :
    parseValue f (' ' :: X) = parseValue f X :=
  parseValue_eq_of_skipWs f _ X (skipWs_space X)

theorem jsize_pos (v : PyValue) : 1 ≤ jsize v := by
  cases v <;> simp [jsize]

mutual

theorem parse_enc_val (fuel ind : Nat) (v : PyValue) (rest : List Char)
    (hs : json_serializable v = true) (hf : jsize v < fuel)
    (hrg : ∀ c, rest.head? = some c → isDigitChar c = false) :
    parseValue fuel (encode_val ind v ++ rest) = some (v, rest) := by
  cases fuel with
  | zero => omega
  | succ f =>
    cases v with
    | obj ms =>
      cases ms with
      | nil =>
        rw [show encode_val ind (.obj []) ++ rest = '{' :: '}' :: rest from rfl,
          parseValue_obj_empty]
      | cons m ms =>
        obtain ⟨k, v2⟩ := m
        obtain ⟨hv, hms⟩ : json_serializable v2 = true
            ∧ json_serializable_members ms = true := by
          have hs' : (json_serializable v2 && json_serializable_members ms)
              = true := hs
          rw [Bool.and_eq_true] at hs'
          exact hs'
        have e1 : jsize (PyValue.obj ((k, v2) :: ms))
            = 1 + (1 + jsize v2 + jsizeMembers ms) := rfl
        rw [show encode_val ind (.obj ((k, v2) :: ms)) ++ rest
            = '{' :: (encode_member (ind + 2) (k, v2)
              ++ (encode_members (ind + 2) ms
                ++ ('\n' :: (spaces ind ++ ('}' :: rest))))) from by
          rw [show encode_val ind (.obj ((k, v2) :: ms))
              = '{' :: (encode_member (ind + 2) (k, v2)
                ++ encode_members (ind + 2) ms) ++ '\n' :: spaces ind ++ ['}']
            from rfl]
          simp [List.append_assoc]]
        rw [parseValue_obj_nonempty f _ _ (by
          rw [show encode_member (ind + 2) (k, v2)
              ++ (encode_members (ind + 2) ms
                ++ ('\n' :: (spaces ind ++ ('}' :: rest))))
              = '\n' :: (spaces (ind + 2) ++ ('"' :: (enc_string_body k.data
                ++ ('"' :: (':' :: (' ' :: (encode_val (ind + 2) v2
                  ++ (encode_members (ind + 2) ms
                    ++ ('\n' :: (spaces ind ++ ('}' :: rest))))))))))) from by
            rw [encode_member, enc_string]
            simp [List.append_assoc]]
          rw [skipWs_nl, skipWs_spaces, skipWs_cons_of_not '"' _ (by decide)])]
        rw [show encode_member (ind + 2) (k, v2)
            ++ (encode_members (ind + 2) ms
              ++ ('\n' :: (spaces ind ++ ('}' :: rest))))
            = encode_member (ind + 2) (k, v2)
              ++ (encode_members (ind + 2) ms
                ++ ('\n' :: (spaces ind ++ ('}' :: rest)))) from rfl]
        rw [parse_enc_members f (ind + 2) ind k v2 ms rest hv hms (by omega)]
        rfl
    | arr vs =>
      cases vs with
      | nil =>
        rw [show encode_val ind (.arr []) ++ rest = '[' :: ']' :: rest from rfl,
          parseValue_arr_empty]
      | cons v vs =>
        obtain ⟨hv, hvs⟩ : json_serializable v = true
            ∧ json_serializable_elems vs = true := by
          have hs' : (json_serializable v && json_serializable_elems vs)
              = true := hs
          rw [Bool.and_eq_true] at hs'
          exact hs'
        have e1 : jsize (PyValue.arr (v :: vs))
            = 1 + (1 + jsize v + jsizeElems vs) := rfl
        rw [show encode_val ind (.arr (v :: vs)) ++ rest
            = '[' :: ('\n' :: (spaces (ind + 2) ++ (encode_val (ind + 2) v
              ++ (encode_elems (ind + 2) vs
                ++ ('\n' :: (spaces ind ++ (']' :: rest))))))) from by
          rw [show encode_val ind (.arr (v :: vs))
              = '[' :: (('\n' :: spaces (ind + 2) ++ encode_val (ind + 2) v)
                ++ encode_elems (ind + 2) vs) ++ '\n' :: spaces ind ++ [']']
            from rfl]
          simp [List.append_assoc]]
        obtain ⟨c, cs', hcons, hwsc, hspc, hbr1, hbr2⟩ :=
          encode_val_head (ind + 2) v hv
        rw [parseValue_arr_nonempty f _ c
          (cs' ++ (encode_elems (ind + 2) vs
            ++ ('\n' :: (spaces ind ++ (']' :: rest)))))
          (by rw [skipWs_nl, skipWs_spaces, hcons, List.cons_append,
            skipWs_cons_of_not c _ hwsc]) hbr2 hwsc]
        rw [parse_enc_elems f (ind + 2) ind v vs rest hv hvs (by omega)]
        rfl
    | str s =>
      rw [show encode_val ind (.str s) ++ rest
          = '"' :: (enc_string_body s.data ++ ('"' :: rest)) from by
        rw [show encode_val ind (.str s)
            = '"' :: enc_string_body s.data ++ ['"'] from rfl]
        simp [List.append_assoc]]
      rw [parseValue_str f s rest]
    | num n =>
      exact parseValue_num f n rest hrg
    | bool b =>
      cases b
      · rw [show encode_val ind (.bool false) ++ rest
            = 'f' :: 'a' :: 'l' :: 's' :: 'e' :: rest from rfl,
          parseValue_false]
      · rw [show encode_val ind (.bool true) ++ rest
            = 't' :: 'r' :: 'u' :: 'e' :: rest from rfl,
          parseValue_true]
    | null =>
      rw [show encode_val ind .null ++ rest
          = 'n' :: 'u' :: 'l' :: 'l' :: rest from rfl,
        parseValue_null]
    | unsupported s =>
      simp [json_serializable] at hs

theorem parse_enc_members (fuel ind ind2 : Nat) (k : String) (v : PyValue)
    (ms : List (String × PyValue)) (rest : List Char)
    (hv : json_serializable v = true)
    (hms : json_serializable_members ms = true)
    (hf : 2 + jsize v + jsizeMembers ms ≤ fuel) :
    parseMembers fuel (encode_member ind (k, v) ++ (encode_members ind ms
      ++ ('\n' :: (spaces ind2 ++ ('}' :: rest)))))
      = some ((k, v) :: ms, rest) := by
  cases fuel with
  | zero => omega
  | succ f =>
    cases ms with
    | nil =>
      have e0 : jsizeMembers ([] : List (String × PyValue)) = 0 := rfl
      rw [show encode_member ind (k, v)
          ++ (encode_members ind ([] : List (String × PyValue))
            ++ ('\n' :: (spaces ind2 ++ ('}' :: rest))))
          = '\n' :: (spaces ind ++ ('"' :: (enc_string_body k.data
            ++ ('"' :: (':' :: (' ' :: (encode_val ind v
              ++ ('\n' :: (spaces ind2 ++ ('}' :: rest)))))))))) from by
        rw [encode_member, enc_string]
        simp [encode_members, List.append_assoc]]
      simp only [parseMembers]
      rw [skipWs_nl, skipWs_spaces, skipWs_cons_of_not '"' _ (by decide)]
      conv_lhs => whnf
      rw [parseStringBody_enc_string k _]
      conv_lhs => whnf
      rw [parseValue_space f _]
      rw [parse_enc_val f ind v _ hv (by omega) (by
        intro c hc
        rw [List.head?_cons] at hc
        injection hc with h
        subst h
        decide)]
      conv_lhs => whnf
      rw [skipWs_nl, skipWs_spaces, skipWs_cons_of_not '}' _ (by decide)]
      rfl
    | cons m2 ms' =>
      obtain ⟨k2, v2⟩ := m2
      obtain ⟨hv2, hms'⟩ : json_serializable v2 = true
          ∧ json_serializable_members ms' = true := by
        have hs' : (json_serializable v2 && json_serializable_members ms')
            = true := hms
        rw [Bool.and_eq_true] at hs'
        exact hs'
      have e0 : jsizeMembers ((k2, v2) :: ms')
          = 1 + jsize v2 + jsizeMembers ms' := rfl
      have hp := jsize_pos v
      rw [show encode_member ind (k, v)
          ++ (encode_members ind ((k2, v2) :: ms')
            ++ ('\n' :: (spaces ind2 ++ ('}' :: rest))))
          = '\n' :: (spaces ind ++ ('"' :: (enc_string_body k.data
            ++ ('"' :: (':' :: (' ' :: (encode_val ind v
              ++ (',' :: (encode_member ind (k2, v2)
                ++ (encode_members ind ms'
                  ++ ('\n' :: (spaces ind2 ++ ('}' :: rest))))))))))))) from by
        rw [show encode_members ind ((k2, v2) :: ms')
            = ',' :: encode_member ind (k2, v2) ++ encode_members ind ms'
          from rfl]
        rw [encode_member, enc_string]
        simp [List.append_assoc]]
      simp only [parseMembers]
      rw [skipWs_nl, skipWs_spaces, skipWs_cons_of_not '"' _ (by decide)]
      conv_lhs => whnf
      rw [parseStringBody_enc_string k _]
      conv_lhs => whnf
      rw [parseValue_space f _]
      rw [parse_enc_val f ind v _ hv (by omega) (by
        intro c hc
        rw [List.head?_cons] at hc
        injection hc with h
        subst h
        decide)]
      conv_lhs => whnf
      rw [parse_enc_members f ind ind2 k2 v2 ms' rest hv2 hms' (by omega)]

theorem parse_enc_elems (fuel ind ind2 : Nat) (v : PyValue)
    (vs : List PyValue) (rest : List Char)
    (hv : json_serializable v = true)
    (hvs : json_serializable_elems vs = true)
    (hf : 2 + jsize v + jsizeElems vs ≤ fuel) :
    parseElems fuel ('\n' :: (spaces ind ++ (encode_val ind v
      ++ (encode_elems ind vs ++ ('\n' :: (spaces ind2 ++ (']' :: rest)))))))
      = some (v :: vs, rest) := by
  cases fuel with
  | zero => omega
  | succ f =>
    cases vs with
    | nil =>
      have e0 : jsizeElems ([] : List PyValue) = 0 := rfl
      rw [show encode_elems ind ([] : List PyValue)
          ++ ('\n' :: (spaces ind2 ++ (']' :: rest)))
          = '\n' :: (spaces ind2 ++ (']' :: rest)) from rfl]
      simp only [parseElems]
      rw [parseValue_nl_spaces f ind _]
      rw [parse_enc_val f ind v _ hv (by omega) (by
        intro c hc
        rw [List.head?_cons] at hc
        injection hc with h
        subst h
        decide)]
      conv_lhs => whnf
      rw [skipWs_nl, skipWs_spaces, skipWs_cons_of_not ']' _ (by decide)]
      rfl
    | cons v2 vs' =>
      obtain ⟨hv2, hvs'⟩ : json_serializable v2 = true
          ∧ json_serializable_elems vs' = true := by
        have hs' : (json_serializable v2 && json_serializable_elems vs')
            = true := hvs
        rw [Bool.and_eq_true] at hs'
        exact hs'
      have e0 : jsizeElems (v2 :: vs') = 1 + jsize v2 + jsizeElems vs' := rfl
      have hp := jsize_pos v
      rw [show encode_elems ind (v2 :: vs')
          ++ ('\n' :: (spaces ind2 ++ (']' :: rest)))
          = ',' :: ('\n' :: (spaces ind ++ (encode_val ind v2
            ++ (encode_elems ind vs'
              ++ ('\n' :: (spaces ind2 ++ (']' :: rest))))))) from by
        rw [show encode_elems ind (v2 :: vs')
            = ',' :: ('\n' :: spaces ind ++ encode_val ind v2)
              ++ encode_elems ind vs' from rfl]
        simp [List.append_assoc]]
      simp only [parseElems]
      rw [parseValue_nl_spaces f ind _]
      rw [parse_enc_val f ind v _ hv (by omega) (by
        intro c hc
        rw [List.head?_cons] at hc
        injection hc with h
        subst h
        decide)]
      conv_lhs => whnf
      rw [parse_enc_elems f ind ind2 v2 vs' rest hv2 hvs' (by omega)]

end


mutual

theorem jsize_le_len_val (ind : Nat) (v : PyValue)
    (hs : json_serializable v = true) :
    jsize v ≤ (encode_val ind v).length := by
  cases v with
  | obj ms =>
    cases ms with
    | nil =>
      rw [show (encode_val ind (.obj [])).length = 2 from rfl,
        show jsize (.obj []) = 1 from rfl]
      omega
    | cons m ms =>
      obtain ⟨hm, hms⟩ : json_serializable m.2 = true
          ∧ json_serializable_members ms = true := by
        obtain ⟨k, v2⟩ := m
        have hs' : (json_serializable v2 && json_serializable_members ms)
            = true := hs
        rw [Bool.and_eq_true] at hs'
        exact hs'
      have h1 := jsize_le_len_member (ind + 2) m hm
      have h2 := jsize_le_len_members (ind + 2) ms hms
      have e1 : jsize (PyValue.obj (m :: ms)) = 1 + jsizeMembers (m :: ms) := rfl
      have e2 : jsizeMembers (m :: ms) = 1 + jsize m.2 + jsizeMembers ms := by
        obtain ⟨k, v2⟩ := m
        rfl
      have e3 : 1 + ((encode_member (ind + 2) m).length
          + (encode_members (ind + 2) ms).length)
          ≤ (encode_val ind (PyValue.obj (m :: ms))).length := by
        rw [show encode_val ind (PyValue.obj (m :: ms))
            = '{' :: (encode_member (ind + 2) m
              ++ encode_members (ind + 2) ms) ++ '\n' :: spaces ind ++ ['}']
          from rfl]
        simp [List.length_append]
        omega
      omega
  | arr vs =>
    cases vs with
    | nil =>
      rw [show (encode_val ind (.arr [])).length = 2 from rfl,
        show jsize (.arr []) = 1 from rfl]
      omega
    | cons v vs =>
      obtain ⟨hv, hvs⟩ : json_serializable v = true
          ∧ json_serializable_elems vs = true := by
        have hs' : (json_serializable v && json_serializable_elems vs)
            = true := hs
        rw [Bool.and_eq_true] at hs'
        exact hs'
      have h1 := jsize_le_len_val (ind + 2) v hv
      have h2 := jsize_le_len_elems (ind + 2) vs hvs
      have e1 : jsize (PyValue.arr (v :: vs)) = 1 + jsizeElems (v :: vs) := rfl
      have e2 : jsizeElems (v :: vs) = 1 + jsize v + jsizeElems vs := rfl
      have e3 : 2 + ((encode_val (ind + 2) v).length
          + (encode_elems (ind + 2) vs).length)
          ≤ (encode_val ind (PyValue.arr (v :: vs))).length := by
        rw [show encode_val ind (PyValue.arr (v :: vs))
            = '[' :: (('\n' :: spaces (ind + 2) ++ encode_val (ind + 2) v)
              ++ encode_elems (ind + 2) vs) ++ '\n' :: spaces ind ++ [']']
          from rfl]
        simp [List.length_append]
        omega
      omega
  | str s =>
    rw [show jsize (.str s) = 1 from rfl,
      show encode_val ind (.str s)
        = '"' :: enc_string_body s.data ++ ['"'] from rfl]
    simp [List.length_append]
  | num n =>
    obtain ⟨c0, cs0, hcons, _, _⟩ := intToChars_head n
    rw [show jsize (.num n) = 1 from rfl,
      show encode_val ind (.num n) = intToChars n from rfl, hcons]
    simp
  | bool b =>
    cases b
    · rw [show jsize (PyValue.bool false) = 1 from rfl,
        show encode_val ind (.bool false) = ['f', 'a', 'l', 's', 'e'] from rfl]
      decide
    · rw [show jsize (PyValue.bool true) = 1 from rfl,
        show encode_val ind (.bool true) = ['t', 'r', 'u', 'e'] from rfl]
      decide
  | null =>
    rw [show jsize PyValue.null = 1 from rfl,
      show encode_val ind PyValue.null = ['n', 'u', 'l', 'l'] from rfl]
    decide
  | unsupported s =>
    simp [json_serializable] at hs

theorem jsize_le_len_member (ind : Nat) (m : String × PyValue)
    (hs : json_serializable m.2 = true) :
    1 + jsize m.2 ≤ (encode_member ind m).length := by
  obtain ⟨k, v⟩ := m
  have h1 := jsize_le_len_val ind v hs
  rw [encode_member]
  simp [List.length_append]
  omega

theorem jsize_le_len_members (ind : Nat) (ms : List (String × PyValue))
    (hs : json_serializable_members ms = true) :
    jsizeMembers ms ≤ (encode_members ind ms).length := by
  cases ms with
  | nil =>
    rw [show jsizeMembers [] = 0 from rfl]
    omega
  | cons m ms =>
    obtain ⟨hm, hms⟩ : json_serializable m.2 = true
        ∧ json_serializable_members ms = true := by
      obtain ⟨k, v2⟩ := m
      have hs' : (json_serializable v2 && json_serializable_members ms)
          = true := hs
      rw [Bool.and_eq_true] at hs'
      exact hs'
    have h1 := jsize_le_len_member ind m hm
    have h2 := jsize_le_len_members ind ms hms
    have e2 : jsizeMembers (m :: ms) = 1 + jsize m.2 + jsizeMembers ms := by
      obtain ⟨k, v2⟩ := m
      rfl
    have e3 : (encode_members ind (m :: ms)).length
        = 1 + (encode_member ind m).length + (encode_members ind ms).length := by
      rw [show encode_members ind (m :: ms)
          = ',' :: encode_member ind m ++ encode_members ind ms from rfl]
      simp [List.length_append]
      omega
    omega

theorem jsize_le_len_elems (ind : Nat) (vs : List PyValue)
    (hs : json_serializable_elems vs = true) :
    jsizeElems vs ≤ (encode_elems ind vs).length := by
  cases vs with
  | nil =>
    rw [show jsizeElems [] = 0 from rfl]
    omega
  | cons v vs =>
    obtain ⟨hv, hvs⟩ : json_serializable v = true
        ∧ json_serializable_elems vs = true := by
      have hs' : (json_serializable v && json_serializable_elems vs)
          = true := hs
      rw [Bool.and_eq_true] at hs'
      exact hs'
    have h1 := jsize_le_len_val ind v hv
    have h2 := jsize_le_len_elems ind vs hvs
    have e2 : jsizeElems (v :: vs) = 1 + jsize v + jsizeElems vs := rfl
    have e3 : 2 + ((encode_val ind v).length + (encode_elems ind vs).length)
        ≤ (encode_elems ind (v :: vs)).length := by
      rw [show encode_elems ind (v :: vs)
          = ',' :: ('\n' :: spaces ind ++ encode_val ind v)
            ++ encode_elems ind vs from rfl]
      simp [List.length_append]
      omega
    omega

end

theorem json_loads_enc (v : PyValue) (hs : json_serializable v = true) :
    json_loads (encode_val 0 v) = some v := by
  unfold json_loads
  have hfuel : jsize v < (encode_val 0 v).length + 1 :=
    Nat.lt_succ_of_le (jsize_le_len_val 0 v hs)
  have h := parse_enc_val ((encode_val 0 v).length + 1) 0 v [] hs hfuel
    (by intro c hc; exact absurd hc (by simp))
  rw [List.append_nil] at h
  rw [h]
  rfl


theorem getLast_cons_ne_nil (c : Char) (l : List Char) (h : l ≠ []) :
    (c :: l).getLast? = l.getLast? := by
  cases l with
  | nil => exact absurd rfl h
  | cons d t => rfl

theorem getLast_append_ne_nil (l1 : List Char) :
    ∀ l2 : List Char, l2 ≠ [] → (l1 ++ l2).getLast? = l2.getLast? := by
  induction l1 with
  | nil => intro l2 _; rfl
  | cons c l1 ih =>
    intro l2 h2
    rw [List.cons_append, getLast_cons_ne_nil c _ (by
      intro hc
      obtain ⟨_, h⟩ := List.append_eq_nil.mp hc
      exact absurd h h2), ih l2 h2]

theorem getLast_mem_of_ne_nil :
    ∀ l : List Char, l ≠ [] → ∃ c, l.getLast? = some c ∧ c ∈ l := by
  intro l
  induction l with
  | nil => intro h; exact absurd rfl h
  | cons c t ih =>
    intro _
    cases t with
    | nil => exact ⟨c, rfl, List.mem_cons_self c []⟩
    | cons d t2 =>
      obtain ⟨e, he, hmem⟩ := ih (by simp)
      exact ⟨e, by rw [getLast_cons_ne_nil c _ (by simp)]; exact he,
        List.mem_cons_of_mem c hmem⟩

theorem digit_list_not_space (c : Char)
    (h : c ∈ ['0', '1', '2', '3', '4', '5', '6', '7', '8', '9']) :
    pyIsSpace c = false := by
  simp only [List.mem_cons, List.not_mem_nil, or_false] at h
  rcases h with rfl|rfl|rfl|rfl|rfl|rfl|rfl|rfl|rfl|rfl <;> decide

theorem encode_val_getLast (ind : Nat) (v : PyValue)
    (hs : json_serializable v = true) :
    ∃ c, (encode_val ind v).getLast? = some c ∧ pyIsSpace c = false := by
  cases v with
  | obj ms =>
    cases ms with
    | nil => exact ⟨'}', rfl, by decide⟩
    | cons m ms =>
      refine ⟨'}', ?_, by decide⟩
      rw [show encode_val ind (.obj (m :: ms))
          = '{' :: (encode_member (ind + 2) m ++ (encode_members (ind + 2) ms
            ++ ('\n' :: (spaces ind ++ ['}'])))) from by
        rw [show encode_val ind (.obj (m :: ms))
            = '{' :: (encode_member (ind + 2) m
              ++ encode_members (ind + 2) ms) ++ '\n' :: spaces ind ++ ['}']
          from rfl]
        simp [List.append_assoc]]
      rw [getLast_cons_ne_nil _ _ (by simp),
        getLast_append_ne_nil _ _ (by simp),
        getLast_append_ne_nil _ _ (by simp),
        getLast_cons_ne_nil _ _ (by simp),
        getLast_append_ne_nil _ _ (by simp)]
      rfl
  | arr vs =>
    cases vs with
    | nil => exact ⟨']', rfl, by decide⟩
    | cons v vs =>
      refine ⟨']', ?_, by decide⟩
      rw [show encode_val ind (.arr (v :: vs))
          = '[' :: ('\n' :: (spaces (ind + 2) ++ (encode_val (ind + 2) v
            ++ (encode_elems (ind + 2) vs
              ++ ('\n' :: (spaces ind ++ [']'])))))) from by
        rw [show encode_val ind (.arr (v :: vs))
            = '[' :: (('\n' :: spaces (ind + 2) ++ encode_val (ind + 2) v)
              ++ encode_elems (ind + 2) vs) ++ '\n' :: spaces ind ++ [']']
          from rfl]
        simp [List.append_assoc]]
      rw [getLast_cons_ne_nil _ _ (by simp),
        getLast_cons_ne_nil _ _ (by simp),
        getLast_append_ne_nil _ _ (by simp),
        getLast_append_ne_nil _ _ (by simp),
        getLast_append_ne_nil _ _ (by simp),
        getLast_cons_ne_nil _ _ (by simp),
        getLast_append_ne_nil _ _ (by simp)]
      rfl
  | str s =>
    refine ⟨'"', ?_, by decide⟩
    rw [show encode_val ind (.str s)
        = '"' :: (enc_string_body s.data ++ ['"']) from by
      rw [show encode_val ind (.str s)
          = '"' :: enc_string_body s.data ++ ['"'] from rfl]
      simp [List.append_assoc]]
    rw [getLast_cons_ne_nil _ _ (by simp),
      getLast_append_ne_nil _ _ (by simp)]
    rfl
  | num n =>
    rw [show encode_val ind (.num n) = intToChars n from rfl]
    unfold intToChars
    split_ifs with hn
    · obtain ⟨d, hd, hmem⟩ :=
        getLast_mem_of_ne_nil (natToDigits n.natAbs) (natToDigits_ne_nil _)
      refine ⟨d, ?_, digit_list_not_space d
        (natToDigitsAux_mem (n.natAbs + 1) n.natAbs d hmem)⟩
      rw [getLast_cons_ne_nil '-' _ (natToDigits_ne_nil _), hd]
    · obtain ⟨d, hd, hmem⟩ :=
        getLast_mem_of_ne_nil (natToDigits n.toNat) (natToDigits_ne_nil _)
      exact ⟨d, hd, digit_list_not_space d
        (natToDigitsAux_mem (n.toNat + 1) n.toNat d hmem)⟩
  | bool b =>
    cases b
    · exact ⟨'e', rfl, by decide⟩
    · exact ⟨'e', rfl, by decide⟩
  | null => exact ⟨'l', rfl, by decide⟩
  | unsupported s => simp [json_serializable] at hs

theorem pyStrip_encode_ne_nil (v : PyValue)
    (hs : json_serializable v = true) :
    pyStrip (encode_val 0 v) ≠ [] := by
  obtain ⟨c, cs, hcons, _, hsp, _, _⟩ := encode_val_head 0 v hs
  unfold pyStrip
  rw [hcons, List.dropWhile_cons, if_neg (by simp [hsp])]
  intro hcontra
  rw [List.reverse_eq_nil_iff, List.dropWhile_eq_nil_iff] at hcontra
  have hcc := hcontra c (by
    rw [List.mem_reverse]
    exact List.mem_cons_self c cs)
  rw [hsp] at hcc
  exact absurd hcc (by decide)

theorem encode_val_getLast_ne_nl (v : PyValue)
    (hs : json_serializable v = true) :
    (encode_val 0 v).getLast? ≠ some '\n' := by
  obtain ⟨c, hc, hsp⟩ := encode_val_getLast 0 v hs
  rw [hc]
  intro h
  injection h with h
  rw [h] at hsp
  exact absurd hsp (by decide)

theorem parse_json5_enc (v : PyValue) (hs : json_serializable v = true)
    (hcl : clean_val v = true) :
    parse_json5 (encode_val 0 v) = some v := by
  unfold parse_json5
  rw [if_neg (pyStrip_encode_ne_nil v hs)]
  have hline : lineScan false false (encode_val 0 v) = some (false, false) := by
    have h := lineScan_encode_val 0 v hcl []
    rw [List.append_nil] at h
    exact h
  have hcomma : commaScan false false (encode_val 0 v)
      = some (false, false) := by
    have h := commaScan_encode_val 0 v hs []
    rw [List.append_nil] at h
    exact h
  rw [strip_comments_id (encode_val 0 v) (false, false) hline
    (encode_val_getLast_ne_nl v hs)]
  rw [show remove_trailing_commas (encode_val 0 v)
      = removeTC false false (encode_val 0 v) from rfl,
    removeTC_id (encode_val 0 v) false false (false, false) hcomma]
  exact json_loads_enc v hs

theorem dict_get_dict_set_ne (k0 : String) (v : PyValue) (k : String)
    (h : k ≠ k0) :
    ∀ ms : List (String × PyValue),
      dict_get (dict_set ms k0 v) k = dict_get ms k := by
  intro ms
  induction ms with
  | nil =>
    rw [show dict_set [] k0 v = [(k0, v)] from rfl,
      show dict_get [(k0, v)] k
        = if k0 = k then some v else dict_get [] k from rfl,
      if_neg (fun e => h e.symm)]
  | cons p ms ih =>
    obtain ⟨k', v'⟩ := p
    by_cases hk : k' = k0
    · rw [show dict_set ((k', v') :: ms) k0 v
          = if k' = k0 then (k0, v) :: ms
            else (k', v') :: dict_set ms k0 v from rfl,
        if_pos hk,
        show dict_get ((k0, v) :: ms) k
          = if k0 = k then some v else dict_get ms k from rfl,
        if_neg (fun e => h e.symm),
        show dict_get ((k', v') :: ms) k
          = if k' = k then some v' else dict_get ms k from rfl,
        if_neg (fun e => h (e.symm.trans hk))]
    · rw [show dict_set ((k', v') :: ms) k0 v
          = if k' = k0 then (k0, v) :: ms
            else (k', v') :: dict_set ms k0 v from rfl,
        if_neg hk,
        show dict_get ((k', v') :: dict_set ms k0 v) k
          = if k' = k then some v' else dict_get (dict_set ms k0 v) k from rfl,
        show dict_get ((k', v') :: ms) k
          = if k' = k then some v' else dict_get ms k from rfl]
      by_cases hkk : k' = k
      · rw [if_pos hkk, if_pos hkk]
      · rw [if_neg hkk, if_neg hkk, ih]

theorem dict_get_dict_set_eq (k0 : String) (v : PyValue) :
    ∀ ms : List (String × PyValue),
      dict_get (dict_set ms k0 v) k0 = some v := by
  intro ms
  induction ms with
  | nil =>
    rw [show dict_set [] k0 v = [(k0, v)] from rfl,
      show dict_get [(k0, v)] k0
        = if k0 = k0 then some v else dict_get [] k0 from rfl,
      if_pos rfl]
  | cons p ms ih =>
    obtain ⟨k', v'⟩ := p
    by_cases hk : k' = k0
    · rw [show dict_set ((k', v') :: ms) k0 v
          = if k' = k0 then (k0, v) :: ms
            else (k', v') :: dict_set ms k0 v from rfl,
        if_pos hk,
        show dict_get ((k0, v) :: ms) k0
          = if k0 = k0 then some v else dict_get ms k0 from rfl,
        if_pos rfl]
    · rw [show dict_set ((k', v') :: ms) k0 v
          = if k' = k0 then (k0, v) :: ms
            else (k', v') :: dict_set ms k0 v from rfl,
        if_neg hk,
        show dict_get ((k', v') :: dict_set ms k0 v) k0
          = if k' = k0 then some v' else dict_get (dict_set ms k0 v) k0
          from rfl,
        if_neg hk, ih]

/-- Claim C2 counterexample: the tree mapping key `k` to the string
`a U+0085 b` is serializable and well formed, yet decoding its encoding
fails outright — `json.dumps(..., ensure_ascii=False)` passes the C1
control character U+0085 through unescaped inside the string literal,
`str.splitlines()` in the comment-stripping pass breaks the text at that
character and the lines are re-joined with a plain newline, which the
strict parser then rejects as a raw control character inside a string
literal. -/
theorem round_trip_counterexample :
    json_serializable (PyValue.obj [("k", PyValue.str "a\u0085b")]) = true
    ∧ wf_val (PyValue.obj [("k", PyValue.str "a\u0085b")]) = true
    ∧ parse_json5 (encode_val 0 (PyValue.obj [("k", PyValue.str "a\u0085b")]))
        = none :=
  ⟨rfl, rfl, rfl⟩

/-- Claim C2 (amended): for every serializable, well-formed document tree
none of whose strings contains one of the line separators U+0085, U+2028,
U+2029, decoding the canonical encoding of the tree yields the tree itself
— same keys, ordering and scalar values. -/
theorem round_trip_encode_decode (v : PyValue)
    (hs : json_serializable v = true) (hwf : wf_val v = true)
    (hcl : clean_val v = true) :
    parse_json5 (encode_val 0 v) = some v :=
  parse_json5_enc v hs hcl

theorem round_trip_encode_decode_witness :
    json_serializable (PyValue.obj [("a", PyValue.num 1),
      ("b", PyValue.arr [PyValue.bool true, PyValue.null])]) = true
    ∧ wf_val (PyValue.obj [("a", PyValue.num 1),
      ("b", PyValue.arr [PyValue.bool true, PyValue.null])]) = true
    ∧ clean_val (PyValue.obj [("a", PyValue.num 1),
      ("b", PyValue.arr [PyValue.bool true, PyValue.null])]) = true
    ∧ parse_json5 (encode_val 0 (PyValue.obj [("a", PyValue.num 1),
      ("b", PyValue.arr [PyValue.bool true, PyValue.null])]))
      = some (PyValue.obj [("a", PyValue.num 1),
        ("b", PyValue.arr [PyValue.bool true, PyValue.null])]) :=
  ⟨rfl, rfl, rfl,
   round_trip_encode_decode (PyValue.obj [("a", PyValue.num 1),
     ("b", PyValue.arr [PyValue.bool true, PyValue.null])]) rfl rfl rfl⟩

/-- Claim C3: when the post-write validation re-decode fails (an injected
read fault or a genuine decode failure of the serialized content), the
write reports failure, the temporary file is removed, no rename is
performed, and the file map — in particular the target path — is
unchanged. -/
theorem write_validation_failure_atomic (env : Env) (fs : FState)
    (path : String) (settings : PyValue) (content : List Char)
    (hc : env.createFault = false)
    (hd : dumps settings = some content)
    (hval : env.readFault = true ∨ parse_json5 content = none) :
    (write_zed_settings env fs path settings).1 = false
    ∧ (write_zed_settings env fs path settings).2.1.files = fs.files
    ∧ (write_zed_settings env fs path settings).2.1.temp = none
    ∧ IOEvent.moveTemp ∉ (write_zed_settings env fs path settings).2.2 := by
  obtain ⟨cf, rf, mf⟩ := env
  have hc' : cf = false := hc
  subst hc'
  by_cases hr : rf = true
  · subst hr
    have hw : write_zed_settings ⟨false, true, mf⟩ fs path settings
        = (false, { fs with temp := none },
           [IOEvent.createTemp, IOEvent.writeTemp, IOEvent.unlinkTemp]) := by
      unfold write_zed_settings
      rw [hd]
      rfl
    rw [hw]
    exact ⟨rfl, rfl, rfl,
      (by decide : IOEvent.moveTemp ∉
        [IOEvent.createTemp, IOEvent.writeTemp, IOEvent.unlinkTemp])⟩
  · have hr' : rf = false := by
      cases h2 : rf
      · rfl
      · exact absurd h2 hr
    subst hr'
    rcases hval with hval | hval
    · exact absurd hval hr
    · have hw : write_zed_settings ⟨false, false, mf⟩ fs path settings
          = (false, { fs with temp := none },
             [IOEvent.createTemp, IOEvent.writeTemp, IOEvent.readTemp,
              IOEvent.unlinkTemp]) := by
        unfold write_zed_settings
        rw [hd]
        conv_lhs => whnf
        rw [hval]
      rw [hw]
      exact ⟨rfl, rfl, rfl,
        (by decide : IOEvent.moveTemp ∉
          [IOEvent.createTemp, IOEvent.writeTemp, IOEvent.readTemp,
           IOEvent.unlinkTemp])⟩

theorem write_validation_failure_atomic_witness :
    (⟨false, false, false⟩ : Env).createFault = false
    ∧ dumps (PyValue.obj [("k", PyValue.str "a\u0085b")])
        = some (encode_val 0 (PyValue.obj [("k", PyValue.str "a\u0085b")]))
    ∧ ((⟨false, false, false⟩ : Env).readFault = true
        ∨ parse_json5 (encode_val 0 (PyValue.obj [("k", PyValue.str "a\u0085b")]))
            = none)
    ∧ (write_zed_settings ⟨false, false, false⟩
        ⟨fun _ => none, none⟩ "p" (PyValue.obj [("k", PyValue.str "a\u0085b")])).1
        = false
    ∧ (write_zed_settings ⟨false, false, false⟩
        ⟨fun _ => none, none⟩ "p" (PyValue.obj [("k", PyValue.str "a\u0085b")])).2.1.files
        = (⟨fun _ => none, none⟩ : FState).files
    ∧ (write_zed_settings ⟨false, false, false⟩
        ⟨fun _ => none, none⟩ "p" (PyValue.obj [("k", PyValue.str "a\u0085b")])).2.1.temp
        = none
    ∧ IOEvent.moveTemp ∉ (write_zed_settings ⟨false, false, false⟩
        ⟨fun _ => none, none⟩ "p" (PyValue.obj [("k", PyValue.str "a\u0085b")])).2.2 := by
  have h := write_validation_failure_atomic ⟨false, false, false⟩
    ⟨fun _ => none, none⟩ "p" (PyValue.obj [("k", PyValue.str "a\u0085b")])
    (encode_val 0 (PyValue.obj [("k", PyValue.str "a\u0085b")]))
    rfl rfl (Or.inr rfl)
  exact ⟨rfl, rfl, Or.inr rfl, h.1, h.2.1, h.2.2.1, h.2.2.2⟩

/-- Claim C4 counterexample: writing a document that contains an
unsupported value does perform file I/O before failing — the temporary
file is created first and `json.dumps` raises only afterwards, so the
trace of completed I/O operations is the creation and removal of the
temporary file rather than empty. -/
theorem unsupported_write_counterexample :
    (write_zed_settings ⟨false, false, false⟩ ⟨fun _ => none, none⟩ "p"
        (PyValue.obj [("when", PyValue.unsupported "datetime")])).2.2
      ≠ []
    ∧ (write_zed_settings ⟨false, false, false⟩ ⟨fun _ => none, none⟩ "p"
        (PyValue.obj [("when", PyValue.unsupported "datetime")])).2.2
      = [IOEvent.createTemp, IOEvent.unlinkTemp] :=
  ⟨by decide, by decide⟩

/-- Claim C4 (amended): a document containing a value outside the JSON
data model makes the write fail, with the target file never created or
modified and no temporary file left behind; the failure does not, however,
precede all file I/O — the temporary file is created before serialization
raises and is removed afterwards. -/
theorem unsupported_write_fails (env : Env) (fs : FState) (path : String)
    (settings : PyValue)
    (hc : env.createFault = false)
    (hs : json_serializable settings = false) :
    (write_zed_settings env fs path settings).1 = false
    ∧ (write_zed_settings env fs path settings).2.1.files = fs.files
    ∧ (write_zed_settings env fs path settings).2.1.temp = none
    ∧ (write_zed_settings env fs path settings).2.2
        = [IOEvent.createTemp, IOEvent.unlinkTemp] := by
  have hw : write_zed_settings env fs path settings
      = (false, { fs with temp := none },
         [IOEvent.createTemp, IOEvent.unlinkTemp]) := by
    unfold write_zed_settings
    rw [if_neg (by simp [hc]),
      show dumps settings = none from by
        unfold dumps
        rw [hs]
        rfl]
  rw [hw]
  exact ⟨rfl, rfl, rfl, rfl⟩

theorem unsupported_write_fails_witness :
    (⟨false, false, false⟩ : Env).createFault = false
    ∧ json_serializable (PyValue.obj [("when", PyValue.unsupported "datetime")])
        = false
    ∧ (write_zed_settings ⟨false, false, false⟩ ⟨fun _ => none, none⟩ "p"
        (PyValue.obj [("when", PyValue.unsupported "datetime")])).1 = false
    ∧ (write_zed_settings ⟨false, false, false⟩ ⟨fun _ => none, none⟩ "p"
        (PyValue.obj [("when", PyValue.unsupported "datetime")])).2.1.files
        = (⟨fun _ => none, none⟩ : FState).files
    ∧ (write_zed_settings ⟨false, false, false⟩ ⟨fun _ => none, none⟩ "p"
        (PyValue.obj [("when", PyValue.unsupported "datetime")])).2.1.temp
        = none
    ∧ (write_zed_settings ⟨false, false, false⟩ ⟨fun _ => none, none⟩ "p"
        (PyValue.obj [("when", PyValue.unsupported "datetime")])).2.2
        = [IOEvent.createTemp, IOEvent.unlinkTemp] := by
  have h := unsupported_write_fails ⟨false, false, false⟩
    ⟨fun _ => none, none⟩ "p"
    (PyValue.obj [("when", PyValue.unsupported "datetime")]) rfl rfl
  exact ⟨rfl, rfl, h.1, h.2.1, h.2.2.1, h.2.2.2⟩


theorem update_zed_settings_unfold (env : Env) (fs : FState) (dr : Bool)
    (path : String) (gp : List String) (members : List (String × PyValue))
    (exs : List String)
    (hread : read_zed_settings fs path = some (.obj members))
    (hfse : fse_strings members = some exs) :
    update_zed_settings env fs dr path gp
      = if get_patterns_to_add exs gp = [] then some (true, fs, [])
        else if dr then some (true, fs, [])
        else some (write_zed_settings env fs path
          (.obj (dict_set members FILE_SCAN_EXCLUSIONS
            (.arr ((exs ++ get_patterns_to_add exs gp).map PyValue.str))))) := by
  unfold update_zed_settings
  rw [hread]
  conv_lhs => whnf
  rw [hfse]

/-- Claim C10: with `dry_run` set, the settings update performs no write:
whenever reading succeeds, the exclusion list is well typed and there are
patterns to add, the operation reports success with the file system
unchanged and an empty I/O trace — no file is created or modified and no
temporary file is left behind. -/
theorem dry_run_no_write (env : Env) (fs : FState) (path : String)
    (gp : List String) (members : List (String × PyValue))
    (exs : List String)
    (hread : read_zed_settings fs path = some (.obj members))
    (hfse : fse_strings members = some exs)
    (hne : get_patterns_to_add exs gp ≠ []) :
    update_zed_settings env fs true path gp = some (true, fs, []) := by
  rw [update_zed_settings_unfold env fs true path gp members exs hread hfse,
    if_neg hne, if_pos rfl]

theorem dry_run_no_write_witness :
    read_zed_settings
        ⟨fun p => if p = "s.json"
          then some (encode_val 0 (PyValue.obj [("theme", PyValue.str "dark")]))
          else none, none⟩ "s.json"
      = some (.obj [("theme", PyValue.str "dark")])
    ∧ fse_strings [("theme", PyValue.str "dark")] = some []
    ∧ get_patterns_to_add [] ["**/.env"] ≠ []
    ∧ update_zed_settings ⟨false, false, false⟩
        ⟨fun p => if p = "s.json"
          then some (encode_val 0 (PyValue.obj [("theme", PyValue.str "dark")]))
          else none, none⟩ true "s.json" ["**/.env"]
      = some (true,
        ⟨fun p => if p = "s.json"
          then some (encode_val 0 (PyValue.obj [("theme", PyValue.str "dark")]))
          else none, none⟩, []) :=
  ⟨rfl, rfl, by decide,
   dry_run_no_write ⟨false, false, false⟩ _ "s.json" ["**/.env"]
     [("theme", PyValue.str "dark")] [] rfl rfl (by decide)⟩

/-- Claim C8: a merge-and-write cycle on a settings document rewrites only
the `file_scan_exclusions` entry.  Under a fault-free environment, when the
document reads back as an object, its exclusion list is well typed, there
are new patterns to add, and the updated document is serializable, well
formed and free of exotic line separators, the update succeeds, the target
file re-reads as the updated document, every top-level key other than
`file_scan_exclusions` keeps its value (structure and order included),
`file_scan_exclusions` holds the old list plus the additions, and every
other path on the file system is untouched. -/
theorem update_preserves_unrelated_keys
    (fs : FState) (path : String) (gp : List String)
    (members : List (String × PyValue)) (exs : List String)
    (hread : read_zed_settings fs path = some (.obj members))
    (hfse : fse_strings members = some exs)
    (hne : get_patterns_to_add exs gp ≠ [])
    (hs : json_serializable
        (.obj (dict_set members FILE_SCAN_EXCLUSIONS
          (.arr ((exs ++ get_patterns_to_add exs gp).map PyValue.str))))
        = true)
    (hwf : wf_val
        (.obj (dict_set members FILE_SCAN_EXCLUSIONS
          (.arr ((exs ++ get_patterns_to_add exs gp).map PyValue.str))))
        = true)
    (hcl : clean_val
        (.obj (dict_set members FILE_SCAN_EXCLUSIONS
          (.arr ((exs ++ get_patterns_to_add exs gp).map PyValue.str))))
        = true) :
    ∃ fs' : FState,
      update_zed_settings ⟨false, false, false⟩ fs false path gp
        = some (true, fs',
          [IOEvent.createTemp, IOEvent.writeTemp, IOEvent.readTemp,
           IOEvent.moveTemp])
      ∧ read_zed_settings fs' path
          = some (.obj (dict_set members FILE_SCAN_EXCLUSIONS
            (.arr ((exs ++ get_patterns_to_add exs gp).map PyValue.str))))
      ∧ (∀ k, k ≠ FILE_SCAN_EXCLUSIONS →
          dict_get (dict_set members FILE_SCAN_EXCLUSIONS
            (.arr ((exs ++ get_patterns_to_add exs gp).map PyValue.str))) k
          = dict_get members k)
      ∧ dict_get (dict_set members FILE_SCAN_EXCLUSIONS
            (.arr ((exs ++ get_patterns_to_add exs gp).map PyValue.str)))
          FILE_SCAN_EXCLUSIONS
          = some (.arr ((exs ++ get_patterns_to_add exs gp).map PyValue.str))
      ∧ (∀ q, q ≠ path → fs'.files q = fs.files q) := by
  refine ⟨{ files := fun p => if p = path
      then some (encode_val 0 (.obj (dict_set members FILE_SCAN_EXCLUSIONS
        (.arr ((exs ++ get_patterns_to_add exs gp).map PyValue.str)))))
      else fs.files p, temp := none }, ?_, ?_, ?_, ?_, ?_⟩
  · rw [update_zed_settings_unfold ⟨false, false, false⟩ fs false path gp
      members exs hread hfse, if_neg hne, if_neg (by decide)]
    have hw : write_zed_settings ⟨false, false, false⟩ fs path
        (.obj (dict_set members FILE_SCAN_EXCLUSIONS
          (.arr ((exs ++ get_patterns_to_add exs gp).map PyValue.str))))
        = (true,
           { files := fun p => if p = path
              then some (encode_val 0 (.obj (dict_set members
                FILE_SCAN_EXCLUSIONS
                (.arr ((exs ++ get_patterns_to_add exs gp).map PyValue.str)))))
              else fs.files p, temp := none },
           [IOEvent.createTemp, IOEvent.writeTemp, IOEvent.readTemp,
            IOEvent.moveTemp]) := by
      unfold write_zed_settings
      rw [show dumps (.obj (dict_set members FILE_SCAN_EXCLUSIONS
          (.arr ((exs ++ get_patterns_to_add exs gp).map PyValue.str))))
          = some (encode_val 0 (.obj (dict_set members FILE_SCAN_EXCLUSIONS
            (.arr ((exs ++ get_patterns_to_add exs gp).map PyValue.str)))))
        from by
          unfold dumps
          rw [hs]
          rfl]
      conv_lhs => whnf
      rw [parse_json5_enc _ hs hcl]
      rfl
    rw [hw]
  · rw [show read_zed_settings
        ({ files := fun p => if p = path
          then some (encode_val 0 (.obj (dict_set members FILE_SCAN_EXCLUSIONS
            (.arr ((exs ++ get_patterns_to_add exs gp).map PyValue.str)))))
          else fs.files p, temp := none } : FState) path
        = parse_json5 (encode_val 0 (.obj (dict_set members
            FILE_SCAN_EXCLUSIONS
            (.arr ((exs ++ get_patterns_to_add exs gp).map PyValue.str)))))
      from by
        unfold read_zed_settings
        rw [show (({ files := fun p => if p = path
            then some (encode_val 0 (.obj (dict_set members
              FILE_SCAN_EXCLUSIONS
              (.arr ((exs ++ get_patterns_to_add exs gp).map PyValue.str)))))
            else fs.files p, temp := none } : FState)).files path
            = if path = path
              then some (encode_val 0 (.obj (dict_set members
                FILE_SCAN_EXCLUSIONS
                (.arr ((exs ++ get_patterns_to_add exs gp).map PyValue.str)))))
              else fs.files path from rfl,
          if_pos rfl]]
    exact parse_json5_enc _ hs hcl
  · intro k hk
    exact dict_get_dict_set_ne FILE_SCAN_EXCLUSIONS _ k hk members
  · exact dict_get_dict_set_eq FILE_SCAN_EXCLUSIONS _ members
  · intro q hq
    rw [show (({ files := fun p => if p = path
        then some (encode_val 0 (.obj (dict_set members FILE_SCAN_EXCLUSIONS
          (.arr ((exs ++ get_patterns_to_add exs gp).map PyValue.str)))))
        else fs.files p, temp := none } : FState)).files q
        = if q = path
          then some (encode_val 0 (.obj (dict_set members
            FILE_SCAN_EXCLUSIONS
            (.arr ((exs ++ get_patterns_to_add exs gp).map PyValue.str)))))
          else fs.files q from rfl,
      if_neg hq]


theorem update_preserves_unrelated_keys_witness :
    read_zed_settings
        ⟨fun p => if p = "s.json"
          then some (encode_val 0 (PyValue.obj [("theme", PyValue.str "dark")]))
          else none, none⟩ "s.json"
      = some (.obj [("theme", PyValue.str "dark")])
    ∧ fse_strings [("theme", PyValue.str "dark")] = some []
    ∧ get_patterns_to_add [] ["**/.env"] ≠ []
    ∧ json_serializable
        (.obj (dict_set [("theme", PyValue.str "dark")] FILE_SCAN_EXCLUSIONS
          (.arr ((([] : List String)
            ++ get_patterns_to_add [] ["**/.env"]).map PyValue.str)))) = true
    ∧ wf_val
        (.obj (dict_set [("theme", PyValue.str "dark")] FILE_SCAN_EXCLUSIONS
          (.arr ((([] : List String)
            ++ get_patterns_to_add [] ["**/.env"]).map PyValue.str)))) = true
    ∧ clean_val
        (.obj (dict_set [("theme", PyValue.str "dark")] FILE_SCAN_EXCLUSIONS
          (.arr ((([] : List String)
            ++ get_patterns_to_add [] ["**/.env"]).map PyValue.str)))) = true
    ∧ ∃ fs' : FState,
      update_zed_settings ⟨false, false, false⟩
          ⟨fun p => if p = "s.json"
            then some (encode_val 0 (PyValue.obj [("theme", PyValue.str "dark")]))
            else none, none⟩ false "s.json" ["**/.env"]
        = some (true, fs',
          [IOEvent.createTemp, IOEvent.writeTemp, IOEvent.readTemp,
           IOEvent.moveTemp])
      ∧ read_zed_settings fs' "s.json"
          = some (.obj (dict_set [("theme", PyValue.str "dark")]
            FILE_SCAN_EXCLUSIONS
            (.arr ((([] : List String)
              ++ get_patterns_to_add [] ["**/.env"]).map PyValue.str))))
      ∧ (∀ k, k ≠ FILE_SCAN_EXCLUSIONS →
          dict_get (dict_set [("theme", PyValue.str "dark")]
            FILE_SCAN_EXCLUSIONS
            (.arr ((([] : List String)
              ++ get_patterns_to_add [] ["**/.env"]).map PyValue.str))) k
          = dict_get [("theme", PyValue.str "dark")] k)
      ∧ dict_get (dict_set [("theme", PyValue.str "dark")]
            FILE_SCAN_EXCLUSIONS
            (.arr ((([] : List String)
              ++ get_patterns_to_add [] ["**/.env"]).map PyValue.str)))
          FILE_SCAN_EXCLUSIONS
          = some (.arr ((([] : List String)
              ++ get_patterns_to_add [] ["**/.env"]).map PyValue.str))
      ∧ (∀ q, q ≠ "s.json" → fs'.files q
          = (⟨fun p => if p = "s.json"
              then some (encode_val 0
                (PyValue.obj [("theme", PyValue.str "dark")]))
              else none, none⟩ : FState).files q) :=
  ⟨rfl, rfl, by decide, rfl, rfl, rfl,
   update_preserves_unrelated_keys
     ⟨fun p => if p = "s.json"
       then some (encode_val 0 (PyValue.obj [("theme", PyValue.str "dark")]))
       else none, none⟩ "s.json" ["**/.env"]
     [("theme", PyValue.str "dark")] []
     rfl rfl (by decide) rfl rfl rfl⟩

end Gentlegoose
